import Mathlib

/-!
# Verification of the FROST threshold-signature core and its CLSAG instantiation

A shallow embedding, in Lean 4, of the Rust sources under `crypto/frost`
(`lib.rs`, `key_gen.rs`, `schnorr.rs`) and `coins/monero/src/clsag/multisig.rs`.

* Byte strings are `List Nat` (each entry one byte).
* The curve abstraction (the Rust `Curve` trait) becomes a structure
  `CurveData F G` over an arbitrary scalar field `F` acting on an additive
  group `G`; the trait's contracts (fixed-length canonical encodings,
  identity-rejecting point decoding) become the predicate `CurveWF`.
* Rust `HashMap<u16, T>` values become association lists `List (Nat × T)`
  with no-duplicate-keys invariants carried as hypotheses; `Result` becomes
  `Except`.
* The external batched multi-scalar verifier (the `multiexp` crate, consumed
  as a trait) is modelled from its specified contract: every queued check is
  `Σ sᵢ • Pᵢ = 0`, and blame is the first queued id whose own check fails.
-/

set_option maxRecDepth 10000
set_option linter.unusedSectionVars false

/-- Decidable equality on `Except`, so embedded operations can be evaluated
on concrete inputs. -/
instance exceptDecEq {ε α : Type _} [DecidableEq ε] [DecidableEq α] :
    DecidableEq (Except ε α) := fun x y =>
  match x, y with
  | .ok a, .ok b =>
    if h : a = b then .isTrue (by rw [h])
    else .isFalse (fun hc => h (Except.ok.inj hc))
  | .error a, .error b =>
    if h : a = b then .isTrue (by rw [h])
    else .isFalse (fun hc => h (Except.error.inj hc))
  | .ok _, .error _ => .isFalse (fun hc => Except.noConfusion hc)
  | .error _, .ok _ => .isFalse (fun hc => Except.noConfusion hc)

namespace Frost

/-- Byte strings: each element is one byte (values kept below 256 by construction). -/
abbrev Bytes := List Nat

/-- Big-endian encoding of `x` into `w` bytes (`u16::to_be_bytes`, `u64::to_be_bytes`). -/
def beBytes : Nat → Nat → Bytes
  | 0, _ => []
  | w + 1, x => beBytes w (x / 256) ++ [x % 256]

/-- The `u16::to_be_bytes`. -/
def be16 (x : Nat) : Bytes := beBytes 2 x

/-- The `u64::to_be_bytes`. -/
def be64 (x : Nat) : Bytes := beBytes 8 x

/-- Big-endian decoding (`u16::from_be_bytes`). -/
def fromBe (b : Bytes) : Nat := b.foldl (fun a x => a * 256 + x) 0

/-- The Rust slice `bytes[start .. stop]`. -/
def slice (b : Bytes) (start stop : Nat) : Bytes := (b.drop start).take (stop - start)

/-- Errors of the curve abstraction (`CurveError` in `curve/mod.rs`, as used by
`kp256.rs`). -/
inductive CurveError
  | InvalidLength (expected got : Nat)
  | InvalidScalar
  | InvalidPoint
deriving DecidableEq, Repr

/-- The `FrostError` from `lib.rs`. `InvalidCommitmentQuantity` is the additional
variant referenced by `coins/monero/src/clsag/multisig.rs`. -/
inductive FrostError
  | ZeroParameter (t n : Nat)
  | TooManyParticipants (got : Nat) (max : Nat)
  | InvalidRequiredQuantity (t n : Nat)
  | InvalidParticipantIndex (n i : Nat)
  | InvalidSigningSet (s : String)
  | InvalidParticipantQuantity (expected got : Nat)
  | DuplicatedIndex (i : Nat)
  | MissingParticipant (l : Nat)
  | InvalidCommitment (l : Nat)
  | InvalidProofOfKnowledge (l : Nat)
  | InvalidShare (l : Nat)
  | InvalidCommitmentQuantity (l expected got : Nat)
  | InternalError (s : String)
deriving DecidableEq, Repr

/-- The `MultisigParams` from `lib.rs`: threshold `t`, participant count `n`,
this participant's 1-based index `i`. -/
structure MultisigParams where
  t : Nat
  n : Nat
  i : Nat
deriving DecidableEq, Repr

/-- The `MultisigParams::new` from `lib.rs`. -/
def MultisigParams.new (t n i : Nat) : Except FrostError MultisigParams :=
  if t = 0 ∨ n = 0 then .error (.ZeroParameter t n)
  else if n < t then .error (.InvalidRequiredQuantity t n)
  else if i = 0 ∨ n < i then .error (.InvalidParticipantIndex n i)
  else .ok ⟨t, n, i⟩

section Curve

variable {F G : Type} [Field F] [DecidableEq F] [AddCommGroup G] [Module F G]
  [DecidableEq G]

/-- The data of the Rust `Curve` trait: identifier, generator, encoding
lengths, encodings/decodings, and the domain-separated hashes. The
`GENERATOR_TABLE` of the source always denotes the same point as `GENERATOR`,
so a single field `gen` models both. -/
structure CurveData (F G : Type) where
  ID : Bytes
  gen : G
  F_len : Nat
  G_len : Nat
  F_to_bytes : F → Bytes
  F_from_slice : Bytes → Except CurveError F
  G_to_bytes : G → Bytes
  G_from_slice : Bytes → Except CurveError G
  hash_msg : Bytes → Bytes
  hash_to_F : Bytes → Bytes → F

/-- The contracts the `Curve` trait demands of an implementation (spec §4.1):
encodings have the advertised fixed length, scalar decoding is a left inverse
of encoding, and point decoding is a left inverse of encoding on non-identity
points (`G_from_slice` MUST reject the identity). -/
structure CurveWF (C : CurveData F G) : Prop where
  F_to_bytes_len : ∀ x, (C.F_to_bytes x).length = C.F_len
  F_rt : ∀ x, C.F_from_slice (C.F_to_bytes x) = .ok x
  G_to_bytes_len : ∀ x, (C.G_to_bytes x).length = C.G_len
  G_rt : ∀ x : G, x ≠ 0 → C.G_from_slice (C.G_to_bytes x) = .ok x

/-- The `SchnorrSignature` from `schnorr.rs`. -/
structure SchnorrSignature (F G : Type) where
  R : G
  s : F
deriving DecidableEq, Repr

/-- The `SchnorrSignature::serialize` from `schnorr.rs`. -/
def SchnorrSignature.serialize (C : CurveData F G) (sig : SchnorrSignature F G) : Bytes :=
  C.G_to_bytes sig.R ++ C.F_to_bytes sig.s

/-- The `schnorr::sign` from `schnorr.rs`: `(r·G, r + x·c)`. -/
def schnorrSign (C : CurveData F G) (private_key nonce challenge : F) :
    SchnorrSignature F G :=
  ⟨nonce • C.gen, nonce + private_key * challenge⟩

/-- The `schnorr::verify` from `schnorr.rs`: checks `s·G = R + c·A`. -/
def schnorrVerify (C : CurveData F G) (public_key : G) (challenge : F)
    (signature : SchnorrSignature F G) : Bool :=
  signature.s • C.gen = signature.R + challenge • public_key

/-- The `schnorr::batch_verify` from `schnorr.rs`, with the external
`BatchVerifier` (the `multiexp` crate) modelled from its specified contract:
each triplet queues the check `R + c·A − s·G = 0`, and on failure the id of
the first triplet that fails when re-checked individually is returned. -/
def schnorrBatchVerify (C : CurveData F G)
    (triplets : List (Nat × G × F × SchnorrSignature F G)) : Except Nat Unit :=
  match triplets.find? (fun t =>
      ¬ (t.2.2.2.R + t.2.2.1 • t.2.1 - t.2.2.2.s • C.gen = 0)) with
  | some t => .error t.1
  | none => .ok ()

/-- The `lagrange` from `lib.rs`: the fold accumulates the numerator
`Π m` and the denominator `Π (m − i)` over `m ∈ included, m ≠ i`, then
multiplies the numerator by the inverted denominator. -/
def lagrange (i : Nat) (included : List Nat) : F :=
  let nd : F × F := included.foldl
    (fun nd l =>
      if i = l then nd
      else (nd.1 * (l : F), nd.2 * ((l : F) - (i : F))))
    (1, 1)
  nd.1 * nd.2⁻¹

/-- The `polynomial` from `key_gen.rs`: reverse-Horner evaluation. The source
iterates the reversed coefficient list with indices, adds each coefficient,
and multiplies by `l` except after the last coefficient. -/
def polynomial (coefficients : List F) (l : Nat) : F :=
  (coefficients.reverse.enum).foldl
    (fun share p =>
      let share := share + p.2
      if p.1 ≠ coefficients.length - 1 then share * (l : F) else share)
    0

end Curve

/-- The `HashMap::insert`: replaces the value when the key is present, otherwise
adds a new entry. Association-list model of `HashMap<u16, T>`. -/
def hmInsert {T : Type} (m : List (Nat × T)) (k : Nat) (v : T) : List (Nat × T) :=
  if m.any (fun p => p.1 = k) then
    m.map (fun p => if p.1 = k then (k, v) else p)
  else
    m ++ [(k, v)]

/-- The `HashMap::contains_key`. -/
def hmContains {T : Type} (m : List (Nat × T)) (k : Nat) : Bool :=
  m.any (fun p => p.1 = k)

/-- The `HashMap` indexing (`map[&l]`); total via a default, only evaluated at
keys the source guarantees present. -/
def hmGet {T : Type} [Inhabited T] (m : List (Nat × T)) (k : Nat) : T :=
  match m.find? (fun p => p.1 = k) with
  | some p => p.2
  | none => default

/-- The `validate_map` from `lib.rs`. The Rust function mutates the map through
`&mut`, so the model returns the updated map alongside the verdict: it first
inserts `ours`, fails with `InvalidParticipantQuantity` when the entry count
differs from `included`'s length, then fails with `MissingParticipant` at the
first index of `included` (in order) absent from the map. -/
def validate_map {T : Type} (map : List (Nat × T)) (included : List Nat)
    (ours : Nat × T) : Except FrostError Unit × List (Nat × T) :=
  let map := hmInsert map ours.1 ours.2
  if map.length ≠ included.length then
    (.error (.InvalidParticipantQuantity included.length map.length), map)
  else
    match included.find? (fun l => ¬ hmContains map l) with
    | some l => (.error (.MissingParticipant l), map)
    | none => (.ok (), map)

section Keys

variable {F G : Type} [Field F] [DecidableEq F] [AddCommGroup G] [Module F G]
  [DecidableEq G]

/-- The `MultisigView` from `lib.rs`. `verification_shares` is a `HashMap` keyed
by `1 ..= n` in the source; entry `l` is index `l - 1` of the list here. -/
structure MultisigView (F G : Type) where
  group_key : G
  included : List Nat
  secret_share : F
  verification_shares : List G
deriving DecidableEq

/-- The `MultisigKeys` from `lib.rs`. `verification_shares` is a `HashMap` keyed
by `1 ..= params.n` in the source; entry `l` is index `l - 1` of the list
here. -/
structure MultisigKeys (F G : Type) where
  params : MultisigParams
  secret_share : F
  group_key : G
  verification_shares : List G
  offset : Option F
deriving DecidableEq

/-- The `MultisigKeys::offset` from `lib.rs`: carries any existing offset and
shifts the group key by `offset·G`. -/
def MultisigKeys.applyOffset (C : CurveData F G) (keys : MultisigKeys F G) (offset : F) :
    MultisigKeys F G :=
  { keys with
    offset := some (offset + keys.offset.getD 0)
    group_key := keys.group_key + offset • C.gen }

/-- The `MultisigKeys::view` from `lib.rs`. -/
def MultisigKeys.view (C : CurveData F G) (keys : MultisigKeys F G)
    (included : List Nat) : Except FrostError (MultisigView F G) :=
  if included.length < keys.params.t ∨ keys.params.n < included.length then
    .error (.InvalidSigningSet "invalid amount of participants included")
  else
    let secret_share := keys.secret_share * lagrange keys.params.i included
    let offset : F := keys.offset.getD 0
    let offset_share := offset * ((included.length : F))⁻¹
    .ok
      { group_key := keys.group_key
        secret_share := secret_share + offset_share
        verification_shares := keys.verification_shares.enum.map
          (fun p => (lagrange (p.1 + 1) included : F) • p.2 + offset_share • C.gen)
        included := included }

/-- The `MultisigKeys::serialized_len` from `lib.rs`. -/
def MultisigKeys.serialized_len (C : CurveData F G) (n : Nat) : Nat :=
  8 + C.ID.length + 3 * 2 + C.F_len + C.G_len + n * C.G_len

/-- The `MultisigKeys::serialize` from `lib.rs`: `be64(|ID|) ‖ ID ‖ be16(t) ‖
be16(n) ‖ be16(i) ‖ secret ‖ group ‖ v_1 ‖ … ‖ v_n`. The offset is not
serialized. -/
def MultisigKeys.serialize (C : CurveData F G) (keys : MultisigKeys F G) : Bytes :=
  be64 C.ID.length ++ C.ID
    ++ be16 keys.params.t ++ be16 keys.params.n ++ be16 keys.params.i
    ++ C.F_to_bytes keys.secret_share
    ++ C.G_to_bytes keys.group_key
    ++ (List.range keys.params.n).flatMap
        (fun l => C.G_to_bytes (keys.verification_shares.getD l 0))

/-- The verification-share loop of `MultisigKeys::deserialize`: reads `count`
consecutive `G_len`-byte points starting at `cursor`, failing with `err` on
any undecodable point. -/
def readPoints (C : CurveData F G) (err : FrostError) (serialized : Bytes) :
    Nat → Nat → Except FrostError (List G)
  | _, 0 => .ok []
  | cursor, count + 1 => do
    let p ← (C.G_from_slice (slice serialized cursor (cursor + C.G_len))).mapError
      (fun _ => err)
    let rest ← readPoints C err serialized (cursor + C.G_len) count
    .ok (p :: rest)

/-- The `MultisigKeys::deserialize` from `lib.rs`. -/
def MultisigKeys.deserialize (C : CurveData F G) (serialized : Bytes) :
    Except FrostError (MultisigKeys F G) := do
  let start := be64 C.ID.length ++ C.ID
  let cursor := start.length
  if serialized.length < cursor + 4 then
    throw (.InternalError "MultisigKeys serialization is missing its curve/participant quantities")
  if start ≠ slice serialized 0 cursor then
    throw (.InternalError "curve is distinct between serialization and deserialization")
  let t := fromBe (slice serialized cursor (cursor + 2))
  let cursor := cursor + 2
  let n := fromBe (slice serialized cursor (cursor + 2))
  let cursor := cursor + 2
  if serialized.length ≠ MultisigKeys.serialized_len C n then
    throw (.InternalError "incorrect serialization length")
  let i := fromBe (slice serialized cursor (cursor + 2))
  let cursor := cursor + 2
  let secret_share ← (C.F_from_slice (slice serialized cursor (cursor + C.F_len))).mapError
    (fun _ => FrostError.InternalError "invalid secret share")
  let cursor := cursor + C.F_len
  let group_key ← (C.G_from_slice (slice serialized cursor (cursor + C.G_len))).mapError
    (fun _ => FrostError.InternalError "invalid group key")
  let cursor := cursor + C.G_len
  let verification_shares ←
    readPoints C (.InternalError "invalid verification share") serialized cursor n
  let params ← (MultisigParams.new t n i).mapError
    (fun _ => FrostError.InternalError "invalid parameters")
  .ok
    { params := params
      secret_share := secret_share
      group_key := group_key
      verification_shares := verification_shares
      offset := none }

end Keys

section KeyGen

variable {F G : Type} [Field F] [DecidableEq F] [AddCommGroup G] [Module F G]
  [DecidableEq G]

/-- The domain-separation tag `b"FROST Schnorr Proof of Knowledge"` of
`key_gen.rs`. -/
def pokDST : Bytes := "FROST Schnorr Proof of Knowledge".toList.map Char.toNat

/-- The `challenge` from `key_gen.rs`: `hash_to_F(DST, hash_msg(context) ‖ be16(l)
‖ R ‖ Am)`. -/
def challenge (C : CurveData F G) (context : Bytes) (l : Nat) (R Am : Bytes) : F :=
  C.hash_to_F pokDST (C.hash_msg context ++ be16 l ++ R ++ Am)

/-- The `generate_key_r1` from `key_gen.rs`. The RNG is modelled by passing the
sampled values: the `t` random polynomial coefficients and the
proof-of-knowledge nonce `r`. Returns the coefficients and the serialized
broadcast `encode(C_0) ‖ … ‖ encode(C_{t-1}) ‖ encode(R) ‖ encode(s)`. -/
def generate_key_r1 (C : CurveData F G) (params : MultisigParams) (context : Bytes)
    (coefficients : List F) (r : F) : List F × Bytes :=
  let commitments := coefficients.map (fun a => a • C.gen)
  let serialized := commitments.flatMap C.G_to_bytes
  let sig := schnorrSign C (coefficients.getD 0 0) r
    (challenge C context params.i (C.G_to_bytes (r • C.gen)) serialized)
  (coefficients, serialized ++ sig.serialize C)

/-- The per-participant body of `verify_r1`'s loop over `l = 1 ..= n`:
parses each party's `t` commitments (blaming `InvalidCommitment l`), and for
every party other than ourselves parses its proof of knowledge (blaming
`InvalidProofOfKnowledge l`) and queues the batch-verification triplet. -/
def verifyR1Loop (C : CurveData F G) (params : MultisigParams) (context : Bytes)
    (serialized : List (Nat × Bytes)) :
    List Nat →
      Except FrostError (List (Nat × List G) × List (Nat × G × F × SchnorrSignature F G))
  | [] => .ok ([], [])
  | l :: rest => do
    let bytes := hmGet serialized l
    let commitments_len := params.t * C.G_len
    let these ← readPoints C (.InvalidCommitment l) bytes 0 params.t
    let sigs ←
      if l ≠ params.i then do
        let Rb := slice bytes commitments_len (commitments_len + C.G_len)
        let R ← (C.G_from_slice Rb).mapError
          (fun _ => FrostError.InvalidProofOfKnowledge l)
        let s ← (C.F_from_slice (bytes.drop (commitments_len + C.G_len))).mapError
          (fun _ => FrostError.InvalidProofOfKnowledge l)
        pure [(l, these.getD 0 0,
          challenge C context l Rb (slice bytes 0 commitments_len),
          (⟨R, s⟩ : SchnorrSignature F G))]
      else
        pure []
    let (cm, sg) ← verifyR1Loop C params context serialized rest
    .ok ((l, these) :: cm, sigs ++ sg)

/-- The `verify_r1` from `key_gen.rs`. -/
def verify_r1 (C : CurveData F G) (params : MultisigParams) (context : Bytes)
    (our_commitments : Bytes) (serialized : List (Nat × Bytes)) :
    Except FrostError (List (Nat × List G)) := do
  let included := (List.range params.n).map (· + 1)
  let vm := validate_map serialized included (params.i, our_commitments)
  let _ ← vm.1
  let map := vm.2
  let (commitments, signatures) ← verifyR1Loop C params context map included
  let _ ← (schnorrBatchVerify C signatures).mapError
    (fun l => FrostError.InvalidProofOfKnowledge l)
  .ok commitments

/-- The `generate_key_r2` from `key_gen.rs`: verifies round 1, produces the
secret share `f_i(l)` for every other party `l`, and computes our own share
`f_i(i)`. -/
def generate_key_r2 (C : CurveData F G) (params : MultisigParams) (context : Bytes)
    (coefficients : List F) (our_commitments : Bytes)
    (commitments : List (Nat × Bytes)) :
    Except FrostError (F × List (Nat × List G) × List (Nat × Bytes)) := do
  let commitments ← verify_r1 C params context our_commitments commitments
  let res := (((List.range params.n).map (· + 1)).filter (fun l => l ≠ params.i)).map
    (fun l => (l, C.F_to_bytes (polynomial coefficients l)))
  let share := polynomial coefficients params.i
  .ok (share, commitments, res)

/-- The share-decoding loop of `complete_r2`: every received byte string must
decode to a scalar, blaming `InvalidShare l` otherwise. -/
def decodeShares (C : CurveData F G) : List (Nat × Bytes) → Except FrostError (List (Nat × F))
  | [] => .ok []
  | (l, b) :: rest => do
    let s ← (C.F_from_slice b).mapError (fun _ => FrostError.InvalidShare l)
    let r ← decodeShares C rest
    .ok ((l, s) :: r)

/-- The `exponential` closure of `complete_r2`: pairs `(i^k, values[k])` for
`k < t`. -/
def exponential (t : Nat) (i : Nat) (values : List G) : List (F × G) :=
  (List.range t).map (fun k => (((i : F)) ^ k, values.getD k 0))

/-- Multi-scalar multiplication `Σ sᵢ • Pᵢ` (the `multiexp` crate, modelled
from its specified contract). -/
def msum (values : List (F × G)) : G := (values.map (fun p => p.1 • p.2)).sum

/-- The `complete_r2` from `key_gen.rs`. The external `BatchVerifier` is modelled
from its specified contract: each sender `l ≠ i` queues
`Σ_k i^k·C_{l,k} − s_l·G = 0`, and blame is the first queued sender whose own
check fails. -/
def complete_r2 (C : CurveData F G) (params : MultisigParams) (secret_share : F)
    (commitments : List (Nat × List G)) (serialized : List (Nat × Bytes)) :
    Except FrostError (MultisigKeys F G) := do
  let included := (List.range params.n).map (· + 1)
  let vm := validate_map serialized included (params.i, C.F_to_bytes secret_share)
  let _ ← vm.1
  let shares ← decodeShares C vm.2
  let others := shares.filter (fun p => p.1 ≠ params.i)
  let secret_share := others.foldl (fun acc p => acc + p.2) secret_share
  let batchItems := others.map (fun p =>
    (p.1, exponential params.t params.i (hmGet commitments p.1) ++ [((-p.2 : F), C.gen)]))
  match batchItems.find? (fun item => ¬ (msum item.2 = 0)) with
  | some item => throw (.InvalidCommitment item.1)
  | none =>
    let stripes := (List.range params.t).map
      (fun k => (commitments.map (fun p => p.2.getD k 0)).sum)
    let verification_shares := (List.range params.n).map
      (fun j => msum (exponential (F := F) params.t (j + 1) stripes))
    .ok
      { params := params
        secret_share := secret_share
        group_key := stripes.getD 0 0
        verification_shares := verification_shares
        offset := none }

/-- The round-1 broadcast of party `l` in an honest `n`-party DKG where party
`l` samples coefficients `co l` and proof-of-knowledge nonce `r l`
(`KeyGenMachine::generate_coefficients`). -/
def dkgBroadcast (C : CurveData F G) (t n : Nat) (context : Bytes)
    (co : Nat → List F) (r : Nat → F) (l : Nat) : Bytes :=
  (generate_key_r1 C ⟨t, n, l⟩ context (co l) (r l)).2

/-- The indices `1 ..= n` without `pi`. -/
def otherIndices (n pi : Nat) : List Nat :=
  ((List.range n).map (· + 1)).filter (fun l => l ≠ pi)

/-- The commitments `a_k·G` of party `l`'s coefficients in an honest DKG. -/
def dkgCommits (C : CurveData F G) (co : Nat → List F) (l : Nat) : List G :=
  (co l).map (fun a => a • C.gen)

/-- The proof-of-knowledge challenge of party `l`'s honest round-1
broadcast. -/
def dkgChal (C : CurveData F G) (context : Bytes) (co : Nat → List F)
    (r : Nat → F) (l : Nat) : F :=
  challenge C context l (C.G_to_bytes (r l • C.gen))
    ((dkgCommits C co l).flatMap C.G_to_bytes)

/-- The response scalar of party `l`'s honest proof of knowledge. -/
def dkgPoKs (C : CurveData F G) (context : Bytes) (co : Nat → List F)
    (r : Nat → F) (l : Nat) : F :=
  r l + (co l).getD 0 0 * dkgChal C context co r l

/-- Party `pi`'s full honest DKG run (`generate_coefficients`,
`generate_secret_shares`, `complete`) with all messages exchanged faithfully:
party `pi` receives every other party's round-1 broadcast, and obtains its
round-2 share from each other party `l` by running `l`'s `generate_key_r2`
and reading the entry addressed to `pi`. -/
def dkgRun (C : CurveData F G) (t n : Nat) (context : Bytes)
    (co : Nat → List F) (r : Nat → F) (pi : Nat) :
    Except FrostError (MultisigKeys F G) := do
  let params : MultisigParams := ⟨t, n, pi⟩
  let othersB := (otherIndices n pi).map (fun l => (l, dkgBroadcast C t n context co r l))
  let (share, commitments, _res) ←
    generate_key_r2 C params context (co pi) (dkgBroadcast C t n context co r pi) othersB
  let sharesIn ← (otherIndices n pi).mapM (fun l => do
    let sent ← generate_key_r2 C ⟨t, n, l⟩ context (co l)
      (dkgBroadcast C t n context co r l)
      ((otherIndices n l).map (fun m => (m, dkgBroadcast C t n context co r m)))
    pure (l, hmGet sent.2.2 pi))
  complete_r2 C params share commitments sharesIn

/-- Closed form of the DKG stripes: `S_k = Σ_l a_{l,k}·G`. -/
def dkgStripe (C : CurveData F G) (n : Nat) (co : Nat → List F) (k : Nat) : G :=
  (((List.range n).map (· + 1)).map (fun l => ((co l).getD k 0) • C.gen)).sum

/-- Closed form of the DKG verification share of party `j`:
`v_j = Σ_k j^k·S_k`. -/
def dkgVerificationShare (C : CurveData F G) (t n : Nat) (co : Nat → List F)
    (j : Nat) : G :=
  ((List.range t).map (fun k => (((j : F)) ^ k) • dkgStripe C n co k)).sum

/-- Closed form of the DKG secret share of party `pi`: `Σ_l f_l(pi)`. -/
def dkgSecret (n : Nat) (co : Nat → List F) (pi : Nat) : F :=
  (((List.range n).map (· + 1)).map (fun l => polynomial (co l) pi)).sum

end KeyGen

/-- Little-endian encoding of `x` into `w` bytes (`usize::to_le_bytes`). -/
def leBytes : Nat → Nat → Bytes
  | 0, _ => []
  | w + 1, x => x % 256 :: leBytes w (x / 256)

/-- The `usize::to_le_bytes` (64-bit). -/
def le64 (x : Nat) : Bytes := leBytes 8 x

section Clsag

variable {Sc Pt ClsagT : Type} [Field Sc] [AddCommGroup Pt] [Module Sc Pt]

/-- Modelled from the spec: `DLEqProof` of `coins/monero/src/frost.rs` (not
under `src/`) — a Chaum–Pedersen non-interactive proof that the same scalar
is the discrete log of two points under two distinct bases, carried as two
scalars. -/
structure DLEqProof (Sc : Type) where
  c : Sc
  s : Sc

/-- Modelled from the spec: `DLEqProof::serialize` of
`coins/monero/src/frost.rs` (not under `src/`) — a 64-byte encoding, the two
32-byte scalar encodings concatenated. -/
def DLEqProof.serialize (enc : Sc → Bytes) (p : DLEqProof Sc) : Bytes :=
  enc p.c ++ enc p.s

/-- The external Ed25519/Monero primitives consumed by
`coins/monero/src/clsag/multisig.rs`: point compression and decompression
(curve25519-dalek), the ledger-specific `hash_to_point`, the scalar encoding,
and the DLEq prove/verify operations (`dleqProve` additionally takes the
sampled proof randomness). -/
structure MoneroEnv (Sc Pt : Type) where
  compress : Pt → Bytes
  GfromSlice : Bytes → Except CurveError Pt
  hashToPoint : Pt → Pt
  scEncode : Sc → Bytes
  dleqProve : Sc → Sc → Pt → Pt → DLEqProof Sc
  dleqDeserialize : Bytes → Option (DLEqProof Sc)
  dleqVerify : DLEqProof Sc → Pt → Pt → Pt → Bool

/-- The fields of `SignableInput` that `multisig.rs` reads: the ring (each
member a list of keys) and the signer's ring index. -/
structure SignableInput (Pt : Type) where
  ring : List (List Pt)
  i : Nat

/-- The `ClsagSignInterim` from `multisig.rs`. -/
structure ClsagSignInterim (Sc Pt ClsagT : Type) where
  c : Sc
  s : Sc
  clsag : ClsagT
  C_out : Pt

/-- The `Multisig` state of `multisig.rs`: the running transcript `b`, the
accumulator `AH`, the message, the signable input, and the interim state. -/
structure Multisig (Sc Pt ClsagT : Type) where
  b : Bytes
  AH : Pt
  msg : Bytes
  input : SignableInput Pt
  interim : Option (ClsagSignInterim Sc Pt ClsagT)

/-- The `Multisig::addendum_commit_len` from `multisig.rs`. -/
def Multisig.addendum_commit_len : Nat := 64

/-- The `Multisig::preprocess_addendum` from `multisig.rs`: with
`H = hash_to_point(group_key)` and nonces `(d, e)`, emits
`compress(d·H) ‖ compress(e·H) ‖ DLEqProof(d; G,H) ‖ DLEqProof(e; G,H)`.
The RNG is modelled by the sampled DLEq randomness `r0`, `r1`. -/
def Multisig.preprocess_addendum (env : MoneroEnv Sc Pt) (group_key : Pt)
    (nonces : Sc × Sc) (r0 r1 : Sc) : Bytes :=
  let H := env.hashToPoint group_key
  let h0 := nonces.1 • H
  let h1 := nonces.2 • H
  env.compress h0 ++ env.compress h1
    ++ (env.dleqProve r0 nonces.1 H h0).serialize env.scEncode
    ++ (env.dleqProve r1 nonces.2 H h1).serialize env.scEncode

/-- The `Multisig::process_addendum` from `multisig.rs`. The Rust method mutates
`self` through `&mut`, so the model returns the updated state alongside the
verdict; every early `Err` leaves the state exactly as it was, because the
source performs all mutations after the last fallible step. -/
def Multisig.process_addendum (env : MoneroEnv Sc Pt) (m : Multisig Sc Pt ClsagT)
    (l : Nat) (commitments : Pt × Pt) (p : Sc) (serialized : Bytes) :
    Except FrostError Unit × Multisig Sc Pt ClsagT :=
  if serialized.length ≠ 192 then
    (.error (.InvalidCommitmentQuantity l 6 (serialized.length / 32)), m)
  else
    let alt := env.hashToPoint ((m.input.ring.getD m.input.i []).getD 0 0)
    let checks : Except FrostError (Pt × Pt) := do
      let h0 ← (env.GfromSlice (slice serialized 0 32)).mapError
        (fun _ => FrostError.InvalidCommitment l)
      let pr0 ← match env.dleqDeserialize (slice serialized 64 128) with
        | some pr => pure pr
        | none => throw (FrostError.InvalidCommitment l)
      let _ ← if env.dleqVerify pr0 alt commitments.1 h0 then pure ()
        else throw (FrostError.InvalidCommitment l)
      let h1 ← (env.GfromSlice (slice serialized 32 64)).mapError
        (fun _ => FrostError.InvalidCommitment l)
      let pr1 ← match env.dleqDeserialize (slice serialized 128 192) with
        | some pr => pure pr
        | none => throw (FrostError.InvalidCommitment l)
      let _ ← if env.dleqVerify pr1 alt commitments.2 h1 then pure ()
        else throw (FrostError.InvalidCommitment l)
      pure (h0, h1)
    match checks with
    | .error e => (.error e, m)
    | .ok (h0, h1) =>
      (.ok (),
        { m with
          b := m.b ++ le64 l ++ slice serialized 0 64
          AH := m.AH + (h0 + p • h1) })

end Clsag

/-! ## A concrete curve instance

A small instance of the `Curve` contract used to evaluate the embedded
operations on explicit inputs: the scalar field `ZMod 251` acting on itself,
with generator `1`, one-byte canonical encodings, and point decoding
rejecting the identity. -/

instance fact_prime_251 : Fact (Nat.Prime 251) := ⟨by norm_num⟩

/-- The toy scalar field / group. -/
abbrev ToyF := ZMod 251

/-- A small concrete `CurveData` satisfying `CurveWF`. -/
def toyCurve : CurveData ToyF ToyF where
  ID := [84]
  gen := 1
  F_len := 1
  G_len := 1
  F_to_bytes x := [x.val]
  F_from_slice b :=
    match b with
    | [v] => if v < 251 then .ok (v : ToyF) else .error .InvalidScalar
    | _ => .error (.InvalidLength 1 b.length)
  G_to_bytes x := [x.val]
  G_from_slice b :=
    match b with
    | [v] => if v = 0 ∨ 251 ≤ v then .error .InvalidPoint else .ok (v : ToyF)
    | _ => .error (.InvalidLength 1 b.length)
  hash_msg m := m
  hash_to_F _ _ := 1

/-- Concrete keys over the toy curve (the verification shares are arbitrary
non-identity points consistent with `n = 3`). -/
def toyKeys : MultisigKeys ToyF ToyF where
  params := ⟨2, 3, 1⟩
  secret_share := 5
  group_key := 7
  verification_shares := [3, 9, 27]
  offset := none

/-- Toy DKG coefficients for a `t = 2`, `n = 2` run: party `l` samples
`[l + 1, l + 2]`. -/
def toyCo : Nat → List ToyF := fun l => [(l : ToyF) + 1, (l : ToyF) + 2]

/-- Toy DKG proof-of-knowledge nonces: party `l` samples `l + 3`. -/
def toyR : Nat → ToyF := fun l => (l : ToyF) + 3

/-- Toy DKG coefficients for a `t = 2`, `n = 3` share-corruption scenario:
party `l`'s polynomial is `l + (l + 1)·X`. -/
def toyCo3 : Nat → List ToyF := fun l => [(l : ToyF), (l : ToyF) + 1]

/-- Per-party commitment lists of the toy `t = 2`, `n = 3` scenario
(generator `1`, so commitments coincide with coefficients). -/
def toyCm : Nat → List ToyF := fun l => (toyCo3 l).map (fun a => a • (1 : ToyF))

/-- The commitments map of the toy `t = 2`, `n = 3` scenario. -/
def toyCommitments : List (Nat × List ToyF) :=
  ((List.range 3).map (· + 1)).map (fun l => (l, toyCm l))

/-- The round-2 share bytes party 1 receives in the toy scenario: party 2's
share is honest (`f_2(1) = 5`), party 3's is replaced by the validly-encoded
scalar `8 ≠ f_3(1) = 7`. -/
def toySb : Nat → Bytes := fun l => if l = 3 then [8] else [5]

/-- The decoded scalars of `toySb`. -/
def toySv : Nat → ToyF := fun l => if l = 3 then 8 else 5

/-- The corrupted round-2 share map received by party 1. -/
def toyCorruptShares : List (Nat × Bytes) :=
  (otherIndices 3 1).map (fun l => (l, toySb l))

/-- A concrete instance of the external Monero primitives, used to evaluate
the CLSAG operations on explicit inputs (only the byte lengths matter to the
claims evaluated on it). -/
def toyMoneroEnv : MoneroEnv ToyF ToyF where
  compress x := x.val % 256 :: List.replicate 31 0
  GfromSlice _ := .error .InvalidPoint
  hashToPoint x := x
  scEncode s := s.val % 256 :: List.replicate 31 0
  dleqProve _ _ _ _ := ⟨0, 0⟩
  dleqDeserialize _ := none
  dleqVerify _ _ _ _ := false

/-- A concrete CLSAG `Multisig` state. -/
def toyMultisig : Multisig ToyF ToyF Unit where
  b := [1, 2]
  AH := 4
  msg := List.replicate 32 0
  input := ⟨[[1]], 0⟩
  interim := none

/-!
## Theorems
-/

theorem toyCurve_wf : CurveWF toyCurve where
  F_to_bytes_len x := rfl
  F_rt x := by
    simp only [toyCurve]
    rw [if_pos (ZMod.val_lt x), ZMod.natCast_val, ZMod.cast_id]
  G_to_bytes_len x := rfl
  G_rt x hx := by
    simp only [toyCurve]
    rw [if_neg, ZMod.natCast_val, ZMod.cast_id]
    push_neg
    exact ⟨fun h => hx ((ZMod.val_eq_zero x).mp h), ZMod.val_lt x⟩

section SchnorrThms

variable {F G : Type} [Field F] [DecidableEq F] [AddCommGroup G] [Module F G]
  [DecidableEq G]

/-- C6: the Schnorr primitive satisfies `sign(x, r, c) = (r·G, r + x·c)`;
`verify(A, c, σ)` returns true exactly when `σ.s·G = σ.R + c·A`; and for every
secret `x`, nonce `r` and challenge `c`, `verify(x·G, c, sign(x, r, c))`
returns true. -/
theorem schnorr_sign_verify_correct (C : CurveData F G) (x r c : F) (A : G)
    (sig : SchnorrSignature F G) :
    schnorrSign C x r c = ⟨r • C.gen, r + x * c⟩ ∧
    (schnorrVerify C A c sig = true ↔ sig.s • C.gen = sig.R + c • A) ∧
    schnorrVerify C (x • C.gen) c (schnorrSign C x r c) = true := by
  refine ⟨rfl, by simp [schnorrVerify], ?_⟩
  simp only [schnorrVerify, schnorrSign, decide_eq_true_eq]
  rw [add_smul, mul_comm x c, mul_smul]

/-- Inversion distributes over list products in a field (with the junk value
`0⁻¹ = 0`, no nonvanishing hypotheses are needed). -/
theorem list_prod_inv (t : List F) : (t.prod)⁻¹ = (t.map (·⁻¹)).prod := by
  induction t with
  | nil => simp
  | cons x t ih => rw [List.prod_cons, mul_inv, ih, List.map_cons, List.prod_cons]

/-- The `lagrange` fold computes the running products of the numerators and
denominators over the kept indices. -/
theorem lagrange_foldl (i : Nat) (included : List Nat) : ∀ (a b : F),
    included.foldl
      (fun nd l =>
        if i = l then nd
        else (nd.1 * (l : F), nd.2 * ((l : F) - (i : F))))
      (a, b) =
    (a * ((included.filter (fun m => m ≠ i)).map (fun m => (m : F))).prod,
     b * ((included.filter (fun m => m ≠ i)).map (fun m => (m : F) - (i : F))).prod) := by
  induction included with
  | nil => simp
  | cons l rest ih =>
    intro a b
    by_cases h : i = l
    · have hl : ¬ (l ≠ i) := by simp [h.symm]
      rw [List.foldl_cons, if_pos h, ih a b, List.filter_cons, if_neg (by simpa using hl)]
    · have hne : l ≠ i := fun hc => h hc.symm
      rw [List.foldl_cons, if_neg h, ih, List.filter_cons, if_pos (by simpa using hne)]
      simp [mul_assoc]

/-- C8: `lagrange(i, included)` equals the product over `m ∈ included`,
`m ≠ i`, of `m·(m − i)⁻¹` in the scalar field (stated for every index and
every list, which subsumes lists with no repeated element equal to `i`). -/
theorem lagrange_prod_spec (i : Nat) (included : List Nat) :
    (lagrange i included : F) =
      ((included.filter (fun m => m ≠ i)).map
        (fun m => (m : F) * ((m : F) - (i : F))⁻¹)).prod := by
  have h := lagrange_foldl (F := F) i included 1 1
  simp only [lagrange, h, one_mul]
  rw [list_prod_inv, List.map_map, ← List.prod_map_mul]
  rfl

/-- Folding the guarded reverse-Horner step over an enumeration whose indices
all avoid the final index `L` always multiplies. -/
theorem foldl_enumFrom_guard (lf : F) (L : Nat) :
    ∀ (A : List F) (m : Nat) (s : F), (∀ j, j < A.length → m + j ≠ L) →
      (A.enumFrom m).foldl
        (fun share p => if p.1 ≠ L then (share + p.2) * lf else share + p.2) s
      = A.foldl (fun share x => (share + x) * lf) s := by
  intro A
  induction A with
  | nil => intro m s _; rfl
  | cons x t ih =>
    intro m s h
    have h0 : m ≠ L := by simpa using h 0 (by simp)
    simp only [List.enumFrom, List.foldl_cons, if_pos h0]
    exact ih (m + 1) _ (fun j hj => by
      have := h (j + 1) (by simpa using Nat.succ_lt_succ hj)
      omega)

/-- The plain Horner fold equals `l` times the power sum. -/
theorem foldr_horner (lf : F) : ∀ (xs : List F),
    xs.foldr (fun x s => (s + x) * lf) 0 =
      lf * ∑ k in Finset.range xs.length, xs.getD k 0 * lf ^ k := by
  intro xs
  induction xs with
  | nil => simp
  | cons x t ih =>
    simp only [List.foldr_cons, ih, List.length_cons]
    rw [Finset.sum_range_succ']
    simp only [List.getD_cons_succ, List.getD_cons_zero, pow_zero, mul_one,
      pow_succ, ← mul_assoc]
    rw [← Finset.sum_mul]
    ring

/-- The reverse-Horner evaluation of `key_gen.rs` equals the direct power
sum `Σ_k a_k · l^k`. -/
theorem polynomial_eq_sum (coefficients : List F) (l : Nat) :
    polynomial coefficients l =
      ∑ k in Finset.range coefficients.length, coefficients.getD k 0 * (l : F) ^ k := by
  cases coefficients with
  | nil => simp [polynomial]
  | cons c t =>
    show (((c :: t).reverse.enum).foldl
        (fun share p =>
          if p.1 ≠ (c :: t).length - 1 then (share + p.2) * (l : F) else share + p.2)
        0) = _
    rw [List.reverse_cons, List.enum_append, List.foldl_append]
    have hguard : (((t.reverse).enum).foldl
        (fun share p =>
          if p.1 ≠ (c :: t).length - 1 then (share + p.2) * (l : F) else share + p.2)
        0) = (t.reverse).foldl (fun share x => (share + x) * (l : F)) 0 := by
      apply foldl_enumFrom_guard
      intro j hj
      simp only [List.length_reverse] at hj
      simp only [List.length_cons]
      omega
    rw [hguard, List.foldl_reverse]
    have hlast : ([c].enumFrom t.reverse.length).foldl
        (fun share p =>
          if p.1 ≠ (c :: t).length - 1 then (share + p.2) * (l : F) else share + p.2)
        (t.foldr (fun x y => (y + x) * (l : F)) 0)
        = t.foldr (fun x y => (y + x) * (l : F)) 0 + c := by
      simp only [List.enumFrom, List.foldl_cons, List.foldl_nil, List.length_reverse,
        List.length_cons]
      rw [if_neg (by omega)]
    rw [hlast, foldr_horner, List.length_cons, Finset.sum_range_succ']
    simp only [List.getD_cons_succ, List.getD_cons_zero, pow_zero, mul_one,
      pow_succ, ← mul_assoc]
    rw [← Finset.sum_mul, mul_comm]

/-- C7: for every coefficient list `a_0, …, a_{t-1}` (in particular every
non-empty one) and every index `l`, the reverse-Horner evaluation
`polynomial(coefficients, l)` equals the direct power sum
`Σ_{k=0..t-1} a_k · l^k`. -/
theorem polynomial_horner_spec (coefficients : List F) (l : Nat) :
    polynomial coefficients l =
      ∑ k in Finset.range coefficients.length, coefficients.getD k 0 * (l : F) ^ k :=
  polynomial_eq_sum coefficients l

/-- C5: `MultisigKeys::view(included)` succeeds exactly when
`t ≤ |included| ≤ n`; on success the view keeps the (offset-adjusted) group
key, its secret share is `base_share · lagrange(i, included) +
offset/|included|`, and each party `l`'s verification share is
`verification_shares[l] · lagrange(l, included) + (offset/|included|)·G`. -/
theorem view_spec (C : CurveData F G) (k : MultisigKeys F G) (included : List Nat) :
    (k.params.t ≤ included.length ∧ included.length ≤ k.params.n →
      MultisigKeys.view C k included = .ok
        { group_key := k.group_key
          included := included
          secret_share := k.secret_share * lagrange k.params.i included
            + k.offset.getD 0 * ((included.length : F))⁻¹
          verification_shares := k.verification_shares.enum.map
            (fun p => (lagrange (p.1 + 1) included : F) • p.2
              + (k.offset.getD 0 * ((included.length : F))⁻¹) • C.gen) }) ∧
    ((included.length < k.params.t ∨ k.params.n < included.length) →
      MultisigKeys.view C k included =
        .error (.InvalidSigningSet "invalid amount of participants included")) := by
  constructor
  · intro h
    unfold MultisigKeys.view
    rw [if_neg (by omega)]
  · intro h
    unfold MultisigKeys.view
    rw [if_pos h]

/-- Witness for `view_spec`: the concrete toy keys with `t = 2`, `n = 3`
viewed by the signing set `[1, 2]`. -/
theorem view_spec_witness :
    MultisigKeys.view toyCurve toyKeys [1, 2] = .ok
      { group_key := toyKeys.group_key
        included := [1, 2]
        secret_share := toyKeys.secret_share * lagrange toyKeys.params.i [1, 2]
          + toyKeys.offset.getD 0 * ((([1, 2] : List Nat).length : ToyF))⁻¹
        verification_shares := toyKeys.verification_shares.enum.map
          (fun p => (lagrange (p.1 + 1) [1, 2] : ToyF) • p.2
            + (toyKeys.offset.getD 0 * ((([1, 2] : List Nat).length : ToyF))⁻¹) • toyCurve.gen) } :=
  (view_spec toyCurve toyKeys [1, 2]).1 (by decide)

end SchnorrThms

section ClsagThms

variable {Sc Pt ClsagT : Type} [Field Sc] [AddCommGroup Pt] [Module Sc Pt]

/-- C9: whenever the serialized addendum from party `l` has a length
other than 192 bytes, CLSAG's `process_addendum` returns
`InvalidCommitmentQuantity(l, 6, len/32)` and leaves the interim state
(transcript `b` and accumulator `AH`) unchanged. -/
theorem process_addendum_wrong_len (env : MoneroEnv Sc Pt) (m : Multisig Sc Pt ClsagT)
    (l : Nat) (commitments : Pt × Pt) (p : Sc) (serialized : Bytes)
    (h : serialized.length ≠ 192) :
    Multisig.process_addendum env m l commitments p serialized =
      (.error (.InvalidCommitmentQuantity l 6 (serialized.length / 32)), m) := by
  unfold Multisig.process_addendum
  rw [if_pos h]

/-- Witness for `process_addendum_wrong_len`: a one-byte addendum against the
concrete toy state. -/
theorem process_addendum_wrong_len_witness :
    Multisig.process_addendum toyMoneroEnv toyMultisig 5 (1, 2) 3 [7] =
      (.error (.InvalidCommitmentQuantity 5 6 0), toyMultisig) :=
  process_addendum_wrong_len toyMoneroEnv toyMultisig 5 (1, 2) 3 [7] (by decide)

/-- C3 (amended): the addendum produced by CLSAG's `preprocess_addendum`
is 192 bytes — two 32-byte points and two 64-byte DLEq proofs — while
`addendum_commit_len()` is 64 (the two points only); the two are not equal
and neither equals 128. -/
theorem clsag_preprocess_addendum_len (env : MoneroEnv Sc Pt)
    (hc : ∀ x, (env.compress x).length = 32) (he : ∀ s, (env.scEncode s).length = 32)
    (gk : Pt) (nonces : Sc × Sc) (r0 r1 : Sc) :
    (Multisig.preprocess_addendum env gk nonces r0 r1).length = 192 ∧
    Multisig.addendum_commit_len = 64 := by
  refine ⟨?_, rfl⟩
  simp [Multisig.preprocess_addendum, DLEqProof.serialize, hc, he]

/-- Counterexample to C3 as stated: at a concrete input, the addendum's
length (192) differs from `addendum_commit_len()` (64), and
`addendum_commit_len()` is not 128. -/
theorem clsag_addendum_len_cex :
    ¬ (((Multisig.preprocess_addendum toyMoneroEnv (1 : ToyF) (1, 1) 1 1).length
        = Multisig.addendum_commit_len) ∧ Multisig.addendum_commit_len = 128) := by
  decide

/-- Witness for `clsag_preprocess_addendum_len`: the toy environment. -/
theorem clsag_preprocess_addendum_len_witness :
    (Multisig.preprocess_addendum toyMoneroEnv (1 : ToyF) (1, 1) 1 1).length = 192 ∧
    Multisig.addendum_commit_len = 64 :=
  clsag_preprocess_addendum_len toyMoneroEnv (fun _ => rfl) (fun _ => rfl) 1 (1, 1) 1 1

end ClsagThms

section ValidateMapThms

variable {T : Type}

/-- The `hmContains` is membership in the key list. -/
theorem hmContains_iff (m : List (Nat × T)) (x : Nat) :
    hmContains m x = true ↔ x ∈ m.map Prod.fst := by
  simp [hmContains, List.any_eq_true, List.mem_map]

/-- Replacing the entries keyed `k` does not change the key list. -/
theorem hmInsert_keys (m : List (Nat × T)) (k : Nat) (v : T) :
    (hmInsert m k v).map Prod.fst =
      if m.any (fun p => p.1 = k) then m.map Prod.fst else m.map Prod.fst ++ [k] := by
  unfold hmInsert
  split
  · rw [List.map_map]
    apply List.map_eq_map_iff.mpr
    intro p _
    by_cases h : p.1 = k <;> simp [h]
  · simp

/-- After `hmInsert`, the first entry keyed `k` holds the inserted value. -/
theorem hmInsert_find (m : List (Nat × T)) (k : Nat) (v : T) :
    (hmInsert m k v).find? (fun p => p.1 = k) = some (k, v) := by
  unfold hmInsert
  split
  next h =>
    induction m with
    | nil => simp at h
    | cons p t ih =>
      by_cases hp : p.1 = k
      · simp [List.find?, hp]
      · simp only [List.map_cons, if_neg hp]
        rw [List.find?_cons_of_neg _ (by simpa using hp)]
        apply ih
        simp only [List.any_cons, Bool.or_eq_true] at h
        rcases h with h | h
        · exact absurd (by simpa using h) hp
        · exact h
  next h =>
    rw [List.find?_append]
    have h1 : m.find? (fun p => p.1 = k) = none := by
      rw [List.find?_eq_none]
      intro x hx hc
      exact h (List.any_eq_true.mpr ⟨x, hx, hc⟩)
    rw [h1]
    simp [List.find?]

/-- The second component of `validate_map` is always the inserted map. -/
theorem validate_map_snd (m : List (Nat × T)) (inc : List Nat) (ours : Nat × T) :
    (validate_map m inc ours).2 = hmInsert m ours.1 ours.2 := by
  unfold validate_map
  dsimp only
  split
  · rfl
  · split <;> rfl

/-- C10: `validate_map` first unconditionally inserts `our_value` under
`our_index` (replacing any caller-supplied entry, and returning the updated
map through the mutable reference); it returns `Ok` exactly when the
resulting key set equals the included set; otherwise it returns
`InvalidParticipantQuantity` on a size mismatch or `MissingParticipant`
naming an index of `included` absent from the map; and it never returns
`DuplicatedIndex`. -/
theorem validate_map_spec (m : List (Nat × T)) (included : List Nat)
    (ours : Nat × T) (hm : (m.map Prod.fst).Nodup) (hinc : included.Nodup) :
    (validate_map m included ours).2 = hmInsert m ours.1 ours.2 ∧
    (hmInsert m ours.1 ours.2).find? (fun p => p.1 = ours.1) = some (ours.1, ours.2) ∧
    ((validate_map m included ours).1 = .ok () ↔
      ((hmInsert m ours.1 ours.2).map Prod.fst).toFinset = included.toFinset) ∧
    (∀ d, (validate_map m included ours).1 ≠ .error (.DuplicatedIndex d)) ∧
    ((hmInsert m ours.1 ours.2).length ≠ included.length →
      (validate_map m included ours).1 =
        .error (.InvalidParticipantQuantity included.length
          (hmInsert m ours.1 ours.2).length)) ∧
    (∀ l, (validate_map m included ours).1 = .error (.MissingParticipant l) →
      l ∈ included ∧ hmContains (hmInsert m ours.1 ours.2) l = false) := by
  have hkeys : ((hmInsert m ours.1 ours.2).map Prod.fst).Nodup := by
    rw [hmInsert_keys]
    split
    · exact hm
    next h =>
      rw [List.nodup_append]
      refine ⟨hm, List.nodup_singleton _, ?_⟩
      intro x hx
      simp only [List.mem_singleton]
      intro he
      subst he
      rcases List.mem_map.mp hx with ⟨p, hp, hfst⟩
      exact h (List.any_eq_true.mpr ⟨p, hp, by simpa using hfst⟩)
  have hlen : ((hmInsert m ours.1 ours.2).map Prod.fst).length
      = (hmInsert m ours.1 ours.2).length := List.length_map _ _
  refine ⟨validate_map_snd m included ours, hmInsert_find m ours.1 ours.2, ?_, ?_, ?_, ?_⟩
  · -- Ok ↔ key set = included set
    unfold validate_map
    dsimp only
    by_cases hq : (hmInsert m ours.1 ours.2).length ≠ included.length
    · rw [if_pos hq]
      simp only [false_iff, reduceCtorEq]
      intro hset
      apply hq
      rw [← hlen, ← List.toFinset_card_of_nodup hkeys, hset,
        List.toFinset_card_of_nodup hinc]
    · rw [if_neg hq]
      push_neg at hq
      cases hfind : included.find? (fun l => ¬ hmContains (hmInsert m ours.1 ours.2) l) with
      | some l =>
        simp only [reduceCtorEq, false_iff]
        intro hset
        have hl := List.find?_some hfind
        have hmem : l ∈ included := List.mem_of_find?_eq_some hfind
        have : hmContains (hmInsert m ours.1 ours.2) l = false := by
          simpa using hl
        rw [← Bool.not_eq_true, hmContains_iff] at this
        exact this (by
          rw [← List.mem_toFinset, hset]
          exact List.mem_toFinset.mpr hmem)
      | none =>
        simp only [true_iff]
        have hall : ∀ l ∈ included, hmContains (hmInsert m ours.1 ours.2) l = true := by
          intro l hlmem
          have := List.find?_eq_none.mp hfind l hlmem
          simpa using this
        have hsub : included.toFinset ⊆ ((hmInsert m ours.1 ours.2).map Prod.fst).toFinset := by
          intro x hx
          rw [List.mem_toFinset] at hx
          rw [List.mem_toFinset]
          exact (hmContains_iff _ _).mp (hall x hx)
        refine (Finset.eq_of_subset_of_card_le hsub ?_).symm
        rw [List.toFinset_card_of_nodup hinc, List.toFinset_card_of_nodup hkeys, hlen, hq]
  · -- never DuplicatedIndex
    intro d
    unfold validate_map
    dsimp only
    split
    · simp
    · split <;> simp
  · -- size mismatch
    intro hq
    unfold validate_map
    dsimp only
    rw [if_pos hq]
  · -- missing participant
    intro l hl
    unfold validate_map at hl
    dsimp only at hl
    split at hl
    · simp at hl
    · split at hl
      next x hfind =>
        simp only [Except.error.injEq, FrostError.MissingParticipant.injEq] at hl
        subst hl
        refine ⟨List.mem_of_find?_eq_some hfind, ?_⟩
        have := List.find?_some hfind
        simpa using this
      · simp at hl

/-- Witness for `validate_map_spec`: a concrete two-entry map where the
caller also supplied a stale entry for our own index. -/
theorem validate_map_spec_witness :
    (validate_map [(2, [9]), (1, [7])] [1, 2] ((1 : Nat), ([5] : Bytes))).1 = .ok () :=
  ((validate_map_spec [(2, [9]), (1, [7])] [1, 2] (1, [5]) (by decide)
    (by decide)).2.2.1).mpr (by decide)

end ValidateMapThms

section ByteThms

/-- The `beBytes` produces exactly `w` bytes. -/
theorem beBytes_length (w : Nat) : ∀ x, (beBytes w x).length = w := by
  induction w with
  | zero => intro x; rfl
  | succ w ih => intro x; simp [beBytes, ih]

/-- The `u16` big-endian round trip. -/
theorem fromBe_be16 (x : Nat) (h : x < 65536) : fromBe (be16 x) = x := by
  simp [be16, beBytes, fromBe]
  omega

/-- Slicing immediately after a prefix of known length reads the remainder. -/
theorem slice_append (A B : Bytes) (a m : Nat) (h : A.length = a) :
    slice (A ++ B) a (a + m) = B.take m := by
  subst h
  simp [slice, List.drop_left]

/-- Slicing an initial segment of known length reads the prefix. -/
theorem slice_zero (A B : Bytes) (a : Nat) (h : A.length = a) : slice (A ++ B) 0 a = A := by
  subst h
  simp [slice, List.take_left]

/-- Taking a middle segment of known length. -/
theorem slice_segment (A B C : Bytes) (a m : Nat) (ha : A.length = a) (hb : B.length = m) :
    slice (A ++ B ++ C) a (a + m) = B := by
  rw [List.append_assoc, slice_append _ _ _ _ ha, List.take_left' hb]

/-- Length of a `flatMap` whose pieces share one length. -/
theorem flatMap_const_length {α : Type _} (f : α → Bytes) (c : Nat) :
    ∀ (l : List α), (∀ x ∈ l, (f x).length = c) → (l.flatMap f).length = l.length * c := by
  intro l
  induction l with
  | nil => intro _; simp
  | cons x t ih =>
    intro h
    simp only [List.flatMap_cons, List.length_append, List.length_cons]
    rw [h x (by simp), ih (fun y hy => h y (by simp [hy]))]
    ring

/-- Reading list entries back through `getD` over their index range. -/
theorem map_range_getD {α : Type _} (vs : List α) (d : α) :
    (List.range vs.length).map (fun l => vs.getD l d) = vs := by
  apply List.ext_getElem (by simp)
  intro i h1 h2
  simp [List.getD_eq_getElem?_getD, List.getElem?_eq_getElem h2]

/-- The `Except` bind on a success. -/
theorem except_bind_ok {ε α β : Type _} (a : α) (f : α → Except ε β) :
    (Except.ok a >>= f : Except ε β) = f a := rfl

/-- The `Except` bind on a failure. -/
theorem except_bind_error {ε α β : Type _} (e : ε) (f : α → Except ε β) :
    (Except.error e >>= f : Except ε β) = Except.error e := rfl

/-- The `Except.mapError` on a success. -/
theorem except_mapError_ok {ε ε' α : Type _} (a : α) (f : ε → ε') :
    (Except.ok a : Except ε α).mapError f = .ok a := rfl

/-- The `Except.mapError` on a failure. -/
theorem except_mapError_error {ε ε' α : Type _} (e : ε) (f : ε → ε') :
    (Except.error e : Except ε α).mapError f = .error (f e) := rfl

end ByteThms

section ParseThms

variable {F G : Type} [Field F] [DecidableEq F] [AddCommGroup G] [Module F G]
  [DecidableEq G]

/-- The `readPoints` run over the concatenated encodings of non-identity points,
at any cursor equal to the length of what precedes them, recovers the
points. -/
theorem readPoints_ok (C : CurveData F G) (hWF : CurveWF C) (err : FrostError) :
    ∀ (pts : List G) (pre suf : Bytes) (cursor : Nat), pre.length = cursor →
      (∀ p ∈ pts, p ≠ 0) →
      readPoints C err (pre ++ pts.flatMap C.G_to_bytes ++ suf) cursor pts.length = .ok pts := by
  intro pts
  induction pts with
  | nil =>
    intro pre suf cursor h hz
    rfl
  | cons p ps ih =>
    intro pre suf cursor h hz
    have hslice : slice (pre ++ (p :: ps).flatMap C.G_to_bytes ++ suf) cursor
        (cursor + C.G_len) = C.G_to_bytes p := by
      have : pre ++ (p :: ps).flatMap C.G_to_bytes ++ suf
          = pre ++ (C.G_to_bytes p ++ (ps.flatMap C.G_to_bytes ++ suf)) := by
        simp [List.flatMap_cons, List.append_assoc]
      rw [this, slice_append _ _ _ _ h, List.take_left' (hWF.G_to_bytes_len p)]
    rw [List.length_cons, readPoints, hslice, hWF.G_rt p (hz p (by simp)),
      except_mapError_ok, except_bind_ok]
    have hre : pre ++ (p :: ps).flatMap C.G_to_bytes ++ suf
        = (pre ++ C.G_to_bytes p) ++ ps.flatMap C.G_to_bytes ++ suf := by
      simp [List.flatMap_cons, List.append_assoc]
    rw [hre, ih (pre ++ C.G_to_bytes p) suf (cursor + C.G_len)
      (by simp [h, hWF.G_to_bytes_len p]) (fun q hq => hz q (by simp [hq])),
      except_bind_ok]

end ParseThms

section SerializationThms

variable {F G : Type} [Field F] [DecidableEq F] [AddCommGroup G] [Module F G]
  [DecidableEq G]

/-- Extracting a segment from a decomposed byte string. -/
theorem slice_of_split (X A B R : Bytes) (a m : Nat) (hX : X = A ++ (B ++ R))
    (ha : A.length = a) (hb : B.length = m) : slice X a (a + m) = B := by
  subst hX
  rw [slice_append _ _ _ _ ha, List.take_left' hb]

/-- The `readPoints` with nothing after the encoded points. -/
theorem readPoints_ok' (C : CurveData F G) (hWF : CurveWF C) (err : FrostError)
    (pts : List G) (pre : Bytes) (cursor : Nat) (h : pre.length = cursor)
    (hz : ∀ p ∈ pts, p ≠ 0) :
    readPoints C err (pre ++ pts.flatMap C.G_to_bytes) cursor pts.length = .ok pts := by
  have := readPoints_ok C hWF err pts pre [] cursor h hz
  simpa using this

/-- C1 (amended): for keys with valid parameters, `n` verification
shares, and non-identity group key and verification shares,
`deserialize(serialize(k))` succeeds and returns `k` with the (never
persisted) offset field cleared — so it equals `k` exactly when
`k.offset = None`. -/
theorem serialize_deserialize_roundtrip (C : CurveData F G) (hWF : CurveWF C) (k : MultisigKeys F G)
    (ht : 1 ≤ k.params.t) (htn : k.params.t ≤ k.params.n)
    (hi : 1 ≤ k.params.i) (hin : k.params.i ≤ k.params.n)
    (hn : k.params.n < 65536)
    (hvs : k.verification_shares.length = k.params.n)
    (hgz : k.group_key ≠ 0)
    (hvz : ∀ v ∈ k.verification_shares, v ≠ 0) :
    MultisigKeys.deserialize C (MultisigKeys.serialize C k) = .ok { k with offset := none } := by
  obtain ⟨⟨t, n, i⟩, sec, gk, vs, off⟩ := k
  dsimp only at ht htn hi hin hn hvs hgz hvz ⊢
  subst hvs
  have hVS_eq : (List.range vs.length).flatMap (fun l => C.G_to_bytes (vs.getD l 0))
      = vs.flatMap C.G_to_bytes := by
    rw [← List.flatMap_map (fun l => vs.getD l 0) C.G_to_bytes (List.range vs.length),
      map_range_getD]
  unfold MultisigKeys.serialize MultisigKeys.deserialize
  dsimp only
  rw [hVS_eq]
  have hflat : (vs.flatMap C.G_to_bytes).length = vs.length * C.G_len :=
    flatMap_const_length _ _ _ (fun x _ => hWF.G_to_bytes_len x)
  have hlen8 : (be64 (List.length C.ID) ++ C.ID).length = 8 + C.ID.length := by
    simp [be64, beBytes_length]
  have hclen : (be64 (List.length C.ID) ++ C.ID ++ be16 t ++ be16 vs.length ++ be16 i ++ C.F_to_bytes sec ++ C.G_to_bytes gk ++ vs.flatMap C.G_to_bytes).length
      = (List.length (be64 (List.length C.ID) ++ C.ID)) + 2 + 2 + 2 + C.F_len + C.G_len + vs.length * C.G_len := by
    simp only [List.length_append, be16, beBytes_length, hWF.F_to_bytes_len,
      hWF.G_to_bytes_len, hflat]
  rw [if_neg (by omega)]
  have hpr : slice (be64 (List.length C.ID) ++ C.ID ++ be16 t ++ be16 vs.length ++ be16 i ++ C.F_to_bytes sec ++ C.G_to_bytes gk ++ vs.flatMap C.G_to_bytes) 0 (List.length (be64 (List.length C.ID) ++ C.ID)) = be64 (List.length C.ID) ++ C.ID := by
    have hx : be64 (List.length C.ID) ++ C.ID ++ be16 t ++ be16 vs.length ++ be16 i ++ C.F_to_bytes sec ++ C.G_to_bytes gk ++ vs.flatMap C.G_to_bytes
        = (be64 (List.length C.ID) ++ C.ID) ++ (be16 t ++ (be16 vs.length ++ (be16 i
          ++ (C.F_to_bytes sec ++ (C.G_to_bytes gk ++ vs.flatMap C.G_to_bytes))))) := by
      simp [List.append_assoc]
    rw [hx]
    exact slice_zero _ _ _ rfl
  rw [hpr, if_neg (fun hne => hne rfl)]
  simp only [pure_bind]
  have hrt : fromBe (slice (be64 (List.length C.ID) ++ C.ID ++ be16 t ++ be16 vs.length ++ be16 i ++ C.F_to_bytes sec ++ C.G_to_bytes gk ++ vs.flatMap C.G_to_bytes) (List.length (be64 (List.length C.ID) ++ C.ID)) (List.length (be64 (List.length C.ID) ++ C.ID) + 2)) = t := by
    rw [slice_of_split (be64 (List.length C.ID) ++ C.ID ++ be16 t ++ be16 vs.length ++ be16 i ++ C.F_to_bytes sec ++ C.G_to_bytes gk ++ vs.flatMap C.G_to_bytes) (be64 (List.length C.ID) ++ C.ID) (be16 t)
      (be16 vs.length ++ (be16 i ++ (C.F_to_bytes sec ++ (C.G_to_bytes gk
        ++ vs.flatMap C.G_to_bytes)))) (List.length (be64 (List.length C.ID) ++ C.ID)) 2
      (by simp [List.append_assoc]) rfl (by simp [be16, beBytes_length])]
    exact fromBe_be16 t (by omega)
  have hrn : fromBe (slice (be64 (List.length C.ID) ++ C.ID ++ be16 t ++ be16 vs.length ++ be16 i ++ C.F_to_bytes sec ++ C.G_to_bytes gk ++ vs.flatMap C.G_to_bytes) (List.length (be64 (List.length C.ID) ++ C.ID) + 2) (List.length (be64 (List.length C.ID) ++ C.ID) + 2 + 2)) = vs.length := by
    rw [slice_of_split (be64 (List.length C.ID) ++ C.ID ++ be16 t ++ be16 vs.length ++ be16 i ++ C.F_to_bytes sec ++ C.G_to_bytes gk ++ vs.flatMap C.G_to_bytes) (be64 (List.length C.ID) ++ C.ID ++ be16 t) (be16 vs.length)
      (be16 i ++ (C.F_to_bytes sec ++ (C.G_to_bytes gk ++ vs.flatMap C.G_to_bytes)))
      (List.length (be64 (List.length C.ID) ++ C.ID) + 2) 2
      (by simp [List.append_assoc]) (by simp only [List.length_append, be16, beBytes_length]) (by simp [be16, beBytes_length])]
    exact fromBe_be16 vs.length (by omega)
  have hri : fromBe (slice (be64 (List.length C.ID) ++ C.ID ++ be16 t ++ be16 vs.length ++ be16 i ++ C.F_to_bytes sec ++ C.G_to_bytes gk ++ vs.flatMap C.G_to_bytes) (List.length (be64 (List.length C.ID) ++ C.ID) + 2 + 2) (List.length (be64 (List.length C.ID) ++ C.ID) + 2 + 2 + 2)) = i := by
    rw [slice_of_split (be64 (List.length C.ID) ++ C.ID ++ be16 t ++ be16 vs.length ++ be16 i ++ C.F_to_bytes sec ++ C.G_to_bytes gk ++ vs.flatMap C.G_to_bytes) (be64 (List.length C.ID) ++ C.ID ++ be16 t ++ be16 vs.length)
      (be16 i) (C.F_to_bytes sec ++ (C.G_to_bytes gk ++ vs.flatMap C.G_to_bytes))
      (List.length (be64 (List.length C.ID) ++ C.ID) + 2 + 2) 2
      (by simp [List.append_assoc]) (by simp only [List.length_append, be16, beBytes_length]) (by simp [be16, beBytes_length])]
    exact fromBe_be16 i (by omega)
  rw [hrt, hrn, hri]
  rw [if_neg (by
    simp only [MultisigKeys.serialized_len]
    omega)]
  have hrF : C.F_from_slice (slice (be64 (List.length C.ID) ++ C.ID ++ be16 t ++ be16 vs.length ++ be16 i ++ C.F_to_bytes sec ++ C.G_to_bytes gk ++ vs.flatMap C.G_to_bytes)
      (List.length (be64 (List.length C.ID) ++ C.ID) + 2 + 2 + 2) (List.length (be64 (List.length C.ID) ++ C.ID) + 2 + 2 + 2 + C.F_len)) = .ok sec := by
    rw [slice_of_split (be64 (List.length C.ID) ++ C.ID ++ be16 t ++ be16 vs.length ++ be16 i ++ C.F_to_bytes sec ++ C.G_to_bytes gk ++ vs.flatMap C.G_to_bytes)
      (be64 (List.length C.ID) ++ C.ID ++ be16 t ++ be16 vs.length ++ be16 i)
      (C.F_to_bytes sec) (C.G_to_bytes gk ++ vs.flatMap C.G_to_bytes)
      (List.length (be64 (List.length C.ID) ++ C.ID) + 2 + 2 + 2) C.F_len
      (by simp [List.append_assoc]) (by simp only [List.length_append, be16, beBytes_length])
      (hWF.F_to_bytes_len sec)]
    exact hWF.F_rt sec
  have hrG : C.G_from_slice (slice (be64 (List.length C.ID) ++ C.ID ++ be16 t ++ be16 vs.length ++ be16 i ++ C.F_to_bytes sec ++ C.G_to_bytes gk ++ vs.flatMap C.G_to_bytes)
      (List.length (be64 (List.length C.ID) ++ C.ID) + 2 + 2 + 2 + C.F_len) (List.length (be64 (List.length C.ID) ++ C.ID) + 2 + 2 + 2 + C.F_len + C.G_len)) = .ok gk := by
    rw [slice_of_split (be64 (List.length C.ID) ++ C.ID ++ be16 t ++ be16 vs.length ++ be16 i ++ C.F_to_bytes sec ++ C.G_to_bytes gk ++ vs.flatMap C.G_to_bytes)
      (be64 (List.length C.ID) ++ C.ID ++ be16 t ++ be16 vs.length ++ be16 i ++ C.F_to_bytes sec)
      (C.G_to_bytes gk) (vs.flatMap C.G_to_bytes)
      (List.length (be64 (List.length C.ID) ++ C.ID) + 2 + 2 + 2 + C.F_len) C.G_len
      (by simp [List.append_assoc])
      (by simp only [List.length_append, be16, beBytes_length, hWF.F_to_bytes_len])
      (hWF.G_to_bytes_len gk)]
    exact hWF.G_rt gk hgz
  have hrP : readPoints C (FrostError.InternalError "invalid verification share")
      (be64 (List.length C.ID) ++ C.ID ++ be16 t ++ be16 vs.length ++ be16 i ++ C.F_to_bytes sec ++ C.G_to_bytes gk ++ vs.flatMap C.G_to_bytes) (List.length (be64 (List.length C.ID) ++ C.ID) + 2 + 2 + 2 + C.F_len + C.G_len) vs.length = .ok vs :=
    readPoints_ok' C hWF _ vs
      (be64 (List.length C.ID) ++ C.ID ++ be16 t ++ be16 vs.length ++ be16 i
        ++ C.F_to_bytes sec ++ C.G_to_bytes gk)
      (List.length (be64 (List.length C.ID) ++ C.ID) + 2 + 2 + 2 + C.F_len + C.G_len)
      (by simp only [List.length_append, be16, beBytes_length, hWF.F_to_bytes_len,
        hWF.G_to_bytes_len])
      hvz
  have hpar : MultisigParams.new t vs.length i = .ok ⟨t, vs.length, i⟩ := by
    unfold MultisigParams.new
    rw [if_neg (by omega), if_neg (by omega), if_neg (by omega)]
  rw [hrF, hrG, hrP, hpar]
  simp only [except_mapError_ok, except_bind_ok]

/-- Counterexample to C1 as stated: for the concrete toy keys carrying
`offset = Some 0`, the round trip does not return a value equal to the
input (the offset field is not persisted). -/
theorem serialize_deserialize_offset_cex :
    MultisigKeys.deserialize toyCurve
      (MultisigKeys.serialize toyCurve { toyKeys with offset := some 0 })
      ≠ .ok { toyKeys with offset := some 0 } := by
  decide

/-- Witness for `serialize_deserialize_roundtrip`: the concrete toy keys. -/
theorem serialize_deserialize_roundtrip_witness :
    MultisigKeys.deserialize toyCurve (MultisigKeys.serialize toyCurve toyKeys)
      = .ok { toyKeys with offset := none } :=
  serialize_deserialize_roundtrip toyCurve toyCurve_wf toyKeys (by decide) (by decide)
    (by decide) (by decide) (by decide) (by decide) (by decide) (by decide)

end SerializationThms

section IndexThms

variable {T : Type}

/-- Membership in the participant list `1 ..= n`. -/
theorem mem_oneTo (n l : Nat) : l ∈ (List.range n).map (· + 1) ↔ 1 ≤ l ∧ l ≤ n := by
  simp only [List.mem_map, List.mem_range]
  constructor
  · rintro ⟨a, ha, rfl⟩; omega
  · intro h; exact ⟨l - 1, by omega, by omega⟩

/-- The participant list `1 ..= n` has no duplicates. -/
theorem nodup_oneTo (n : Nat) : ((List.range n).map (· + 1)).Nodup :=
  (List.nodup_range n).map (fun a b h => by omega)

/-- Membership in `otherIndices`. -/
theorem mem_otherIndices (n pi l : Nat) :
    l ∈ otherIndices n pi ↔ 1 ≤ l ∧ l ≤ n ∧ l ≠ pi := by
  simp only [otherIndices, List.mem_filter, mem_oneTo, decide_eq_true_eq]
  tauto

/-- The `otherIndices` has no duplicates. -/
theorem nodup_otherIndices (n pi : Nat) : (otherIndices n pi).Nodup :=
  (nodup_oneTo n).filter _

/-- Filtering one present element out of a duplicate-free list drops exactly
one entry. -/
theorem length_filter_ne (a : Nat) :
    ∀ (l : List Nat), l.Nodup → a ∈ l →
      (l.filter (fun x => x ≠ a)).length = l.length - 1 := by
  intro l
  induction l with
  | nil => intro _ h; simp at h
  | cons x t ih =>
    intro hnd hmem
    rcases List.mem_cons.mp hmem with rfl | hmem
    · rw [List.filter_cons, if_neg (by simp)]
      rw [List.filter_eq_self.mpr (fun y hy => by
        simp only [decide_eq_true_eq]
        exact fun hc => (List.nodup_cons.mp hnd).1 (hc ▸ hy))]
      simp
    · have hx : x ≠ a := fun hc => (List.nodup_cons.mp hnd).1 (hc ▸ hmem)
      rw [List.filter_cons, if_pos (by simpa using hx)]
      simp only [List.length_cons, ih (List.nodup_cons.mp hnd).2 hmem]
      have : 1 ≤ t.length := List.length_pos.mpr (fun h => by simp [h] at hmem)
      omega

/-- The `otherIndices n pi` has `n - 1` entries when `pi` lies in `1 ..= n`. -/
theorem length_otherIndices (n pi : Nat) (h1 : 1 ≤ pi) (h2 : pi ≤ n) :
    (otherIndices n pi).length = n - 1 := by
  unfold otherIndices
  rw [length_filter_ne pi _ (nodup_oneTo n) ((mem_oneTo n pi).mpr ⟨h1, h2⟩)]
  simp

/-- The `1 ..= n` is a permutation of `pi` prepended to the other indices. -/
theorem perm_oneTo (n pi : Nat) (h1 : 1 ≤ pi) (h2 : pi ≤ n) :
    List.Perm ((List.range n).map (· + 1)) (pi :: otherIndices n pi) := by
  have hmem : pi ∈ (List.range n).map (· + 1) := (mem_oneTo n pi).mpr ⟨h1, h2⟩
  have hperm := List.perm_cons_erase hmem
  have herase : ((List.range n).map (· + 1)).erase pi = otherIndices n pi := by
    rw [(nodup_oneTo n).erase_eq_filter]
    unfold otherIndices
    congr 1
    funext x
    rw [show (x != pi) = !(decide (x = pi)) from rfl, ← decide_not]
  rw [← herase]
  exact hperm

/-- Looking a key up in a canonical keyed list. -/
theorem hmGet_mapList [Inhabited T] (f : Nat → T) (l : Nat) :
    ∀ (idxs : List Nat), l ∈ idxs →
      hmGet (idxs.map (fun x => (x, f x))) l = f l := by
  intro idxs
  induction idxs with
  | nil => intro h; simp at h
  | cons x t ih =>
    intro hmem
    by_cases hx : x = l
    · subst hx
      simp [hmGet, List.find?]
    · have hmt : l ∈ t := by
        rcases List.mem_cons.mp hmem with h | h
        · exact absurd h.symm hx
        · exact h
      unfold hmGet at ih ⊢
      rw [List.map_cons, List.find?_cons_of_neg _ (by simpa using hx)]
      exact ih hmt

/-- The first entry of a canonical keyed list holding a present key. -/
theorem find_mapList [Inhabited T] (f : Nat → T) (l : Nat) (idxs : List Nat)
    (hmem : l ∈ idxs) :
    (idxs.map (fun x => (x, f x))).find? (fun p => p.1 = l) = some (l, f l) := by
  induction idxs with
  | nil => simp at hmem
  | cons x t ih =>
    by_cases hx : x = l
    · subst hx
      simp [List.find?]
    · have hmt : l ∈ t := by
        rcases List.mem_cons.mp hmem with h | h
        · exact absurd h.symm hx
        · exact h
      rw [List.map_cons, List.find?_cons_of_neg _ (by simpa using hx)]
      exact ih hmt

/-- Looking up any key of `1 ..= n` in the received-plus-own map: the own
entry sits at the end, every other index is served by the canonical list. -/
theorem hmGet_fullMap [Inhabited T] (n pi : Nat) (f : Nat → T) (own : T) (l : Nat)
    (h1 : 1 ≤ l) (h2 : l ≤ n) :
    hmGet ((otherIndices n pi).map (fun x => (x, f x)) ++ [(pi, own)]) l
      = if l = pi then own else f l := by
  by_cases hl : l = pi
  · subst hl
    unfold hmGet
    rw [List.find?_append]
    have hnone : ((otherIndices n l).map (fun x => (x, f x))).find?
        (fun p => p.1 = l) = none := by
      rw [List.find?_eq_none]
      intro p hp
      rcases List.mem_map.mp hp with ⟨x, hx, rfl⟩
      have := (mem_otherIndices n l x).mp hx
      simpa using this.2.2
    rw [hnone]
    simp [List.find?]
  · have hmem : l ∈ otherIndices n pi := (mem_otherIndices n pi l).mpr ⟨h1, h2, hl⟩
    unfold hmGet
    rw [List.find?_append, find_mapList f l _ hmem]
    simp [hl]

/-- The `validate_map` on the canonical received map (all indices `1 ..= n`
except ours) plus our own insertion: succeeds and appends our entry. -/
theorem validate_map_canonical (n pi : Nat) (h1 : 1 ≤ pi) (h2 : pi ≤ n)
    (f : Nat → T) (own : T) :
    validate_map ((otherIndices n pi).map (fun l => (l, f l)))
      ((List.range n).map (· + 1)) (pi, own)
      = (.ok (), (otherIndices n pi).map (fun l => (l, f l)) ++ [(pi, own)]) := by
  have hins : hmInsert ((otherIndices n pi).map (fun l => (l, f l))) pi own
      = (otherIndices n pi).map (fun l => (l, f l)) ++ [(pi, own)] := by
    unfold hmInsert
    rw [if_neg]
    simp only [List.any_eq_true, not_exists, List.mem_map, decide_eq_true_eq, not_and]
    rintro p ⟨x, hx, rfl⟩
    have := (mem_otherIndices n pi x).mp hx
    simpa using this.2.2
  unfold validate_map
  dsimp only
  rw [hins]
  have hlen : ((otherIndices n pi).map (fun l => (l, f l)) ++ [(pi, own)]).length
      = ((List.range n).map (· + 1)).length := by
    simp [length_otherIndices n pi h1 h2]
    omega
  rw [if_neg (by omega)]
  have hfind : ((List.range n).map (· + 1)).find?
      (fun l => ¬ hmContains
        ((otherIndices n pi).map (fun l => (l, f l)) ++ [(pi, own)]) l) = none := by
    rw [List.find?_eq_none]
    intro l hlmem
    have hl := (mem_oneTo n l).mp hlmem
    have hcont : hmContains
        ((otherIndices n pi).map (fun x => (x, f x)) ++ [(pi, own)]) l = true := by
      unfold hmContains
      rw [List.any_eq_true]
      by_cases hlpi : l = pi
      · exact ⟨(pi, own), by simp [hlpi]⟩
      · refine ⟨(l, f l), ?_, by simp⟩
        rw [List.mem_append]
        exact Or.inl (List.mem_map.mpr
          ⟨l, (mem_otherIndices n pi l).mpr ⟨hl.1, hl.2, hlpi⟩, rfl⟩)
    simp [hcont]
  rw [hfind]

end IndexThms

section CompleteThms

variable {F G : Type} [Field F] [DecidableEq F] [AddCommGroup G] [Module F G]
  [DecidableEq G]

/-- The `decodeShares` on an append decodes the two parts. -/
theorem decodeShares_append (C : CurveData F G) :
    ∀ (A B : List (Nat × Bytes)) (A' B' : List (Nat × F)),
      decodeShares C A = .ok A' → decodeShares C B = .ok B' →
      decodeShares C (A ++ B) = .ok (A' ++ B') := by
  intro A
  induction A with
  | nil =>
    intro B A' B' hA hB
    cases hA
    simpa using hB
  | cons p t ih =>
    intro B A' B' hA hB
    obtain ⟨l, b⟩ := p
    rw [decodeShares] at hA
    cases hval : C.F_from_slice b with
    | error e => rw [hval, except_mapError_error, except_bind_error] at hA; cases hA
    | ok v =>
      rw [hval, except_mapError_ok, except_bind_ok] at hA
      cases hrest : decodeShares C t with
      | error e => rw [hrest, except_bind_error] at hA; cases hA
      | ok t' =>
        rw [hrest, except_bind_ok] at hA
        cases hA
        rw [List.cons_append, decodeShares, hval, except_mapError_ok, except_bind_ok,
          ih B t' B' hrest hB, except_bind_ok]
        rfl

/-- The `decodeShares` on a canonical keyed list of valid encodings. -/
theorem decodeShares_mapList (C : CurveData F G) (g : Nat → Bytes) (v : Nat → F) :
    ∀ (idxs : List Nat), (∀ l ∈ idxs, C.F_from_slice (g l) = .ok (v l)) →
      decodeShares C (idxs.map (fun l => (l, g l))) = .ok (idxs.map (fun l => (l, v l))) := by
  intro idxs
  induction idxs with
  | nil => intro _; rfl
  | cons x t ih =>
    intro h
    rw [List.map_cons, decodeShares, h x (by simp), except_mapError_ok, except_bind_ok,
      ih (fun l hl => h l (by simp [hl])), except_bind_ok, List.map_cons]

/-- Accumulating the second components by a left fold. -/
theorem foldl_add_snd (xs : List (Nat × F)) : ∀ (init : F),
    xs.foldl (fun acc p => acc + p.2) init = init + (xs.map Prod.snd).sum := by
  induction xs with
  | nil => intro init; simp
  | cons p t ih =>
    intro init
    simp only [List.foldl_cons, List.map_cons, List.sum_cons, ih]
    ring

/-- A `find?` whose predicate holds at exactly one list element yields it. -/
theorem find_unique {α : Type _} (p : α → Bool) (x : α) :
    ∀ (xs : List α), x ∈ xs → p x = true → (∀ y ∈ xs, y ≠ x → p y = false) →
      xs.find? p = some x := by
  intro xs
  induction xs with
  | nil => intro h; simp at h
  | cons a t ih =>
    intro hmem hx hothers
    by_cases ha : a = x
    · subst ha
      exact List.find?_cons_of_pos _ hx
    · rw [List.find?_cons_of_neg _ (by rw [hothers a (by simp) ha]; simp)]
      have hmt : x ∈ t := by
        rcases List.mem_cons.mp hmem with h | h
        · exact absurd h.symm ha
        · exact h
      exact ih hmt hx (fun y hy => hothers y (by simp [hy]))

/-- The `getD` through a `map`, inside the list. -/
theorem getD_map {α β : Type _} (f : α → β) (l : List α) (k : Nat) (hk : k < l.length)
    (d : β) (d' : α) : (l.map f).getD k d = f (l.getD k d') := by
  simp [List.getD_eq_getElem?_getD, List.getElem?_eq_getElem, hk]

/-- A nonzero scalar keeps a nonzero point away from the identity. -/
theorem smul_ne_zero_of_ne (a : F) (g : G) (ha : a ≠ 0) (hg : g ≠ 0) : a • g ≠ 0 := by
  intro h
  apply hg
  have h2 := congrArg (fun x => a⁻¹ • x) h
  simpa [smul_smul, inv_mul_cancel₀ ha] using h2

/-- The `msum` of the `exponential` pairs is the power-weighted sum. -/
theorem msum_exponential (t j : Nat) (vals : List G) :
    msum (exponential (F := F) t j vals)
      = ∑ k in Finset.range t, (((j : F)) ^ k) • vals.getD k 0 := by
  rw [msum, exponential, List.map_map]
  rfl

/-- The `msum` with a trailing negated generator entry. -/
theorem msum_append_neg (vals : List (F × G)) (s : F) (g : G) :
    msum (vals ++ [(-s, g)]) = msum vals - s • g := by
  simp [msum, neg_smul, sub_eq_add_neg]

/-- The share-consistency check of `complete_r2` vanishes on an honest share:
`Σ_k i^k·(a_k·G) − f(i)·G = 0`. -/
theorem share_check_zero (C : CurveData F G) (t i : Nat) (co : List F)
    (hlen : co.length = t) :
    msum (exponential (F := F) t i (co.map (fun a => a • C.gen))
      ++ [(-(polynomial co i), C.gen)]) = 0 := by
  rw [msum_append_neg, msum_exponential]
  have hsum : ∑ k in Finset.range t, (((i : F)) ^ k) • (co.map (fun a => a • C.gen)).getD k 0
      = (∑ k in Finset.range t, co.getD k 0 * ((i : F)) ^ k) • C.gen := by
    rw [Finset.sum_smul]
    apply Finset.sum_congr rfl
    intro k hk
    rw [getD_map (fun a => a • C.gen) co k (by rw [hlen]; exact Finset.mem_range.mp hk) 0 0,
      smul_smul, mul_comm]
  rw [hsum, polynomial_eq_sum, hlen]
  exact sub_self _

end CompleteThms




section CorruptShareThms

variable {F G : Type} [Field F] [DecidableEq F] [AddCommGroup G] [Module F G]
  [DecidableEq G]

/-- C2 (amended): during DKG finalization (`complete_r2`), when exactly
one party `l`'s round-2 share is a validly-encoded scalar that fails the
check against `l`'s published commitments while every other party's share
passes, completion fails with `InvalidCommitment(l)` naming exactly that
party (`InvalidShare` is reserved for shares that fail to decode). -/
theorem complete_r2_single_corruption (C : CurveData F G) (hWF : CurveWF C)
    (t n i : Nat) (hi1 : 1 ≤ i) (hin : i ≤ n)
    (secret : F) (cm : Nat → List G) (sb : Nat → Bytes) (sv : Nat → F)
    (hdec : ∀ l ∈ otherIndices n i, C.F_from_slice (sb l) = .ok (sv l))
    (l₀ : Nat) (hl₀ : l₀ ∈ otherIndices n i)
    (hfail : msum (exponential (F := F) t i (cm l₀) ++ [(-(sv l₀), C.gen)]) ≠ 0)
    (hpass : ∀ l ∈ otherIndices n i, l ≠ l₀ →
      msum (exponential (F := F) t i (cm l) ++ [(-(sv l), C.gen)]) = 0) :
    complete_r2 C ⟨t, n, i⟩ secret
      (((List.range n).map (· + 1)).map (fun l => (l, cm l)))
      ((otherIndices n i).map (fun l => (l, sb l)))
      = .error (.InvalidCommitment l₀) := by
  unfold complete_r2
  dsimp only
  rw [validate_map_canonical n i hi1 hin sb (C.F_to_bytes secret)]
  dsimp only
  rw [except_bind_ok]
  have hdec1 : decodeShares C [(i, C.F_to_bytes secret)] = .ok [(i, secret)] := by
    rw [decodeShares, hWF.F_rt, except_mapError_ok, except_bind_ok, decodeShares,
      except_bind_ok]
  rw [decodeShares_append C _ _ _ _ (decodeShares_mapList C sb sv _ hdec) hdec1,
    except_bind_ok]
  have hfilter : (((otherIndices n i).map (fun l => (l, sv l)) ++ [(i, secret)]).filter
      (fun p => p.1 ≠ i)) = (otherIndices n i).map (fun l => (l, sv l)) := by
    rw [List.filter_append]
    have h1 : ((otherIndices n i).map (fun l => (l, sv l))).filter (fun p => p.1 ≠ i)
        = (otherIndices n i).map (fun l => (l, sv l)) := by
      apply List.filter_eq_self.mpr
      intro p hp
      rcases List.mem_map.mp hp with ⟨x, hx, rfl⟩
      simpa using ((mem_otherIndices n i x).mp hx).2.2
    have h2 : ([((i : Nat), secret)].filter (fun p => p.1 ≠ i)) = [] := by
      simp
    rw [h1, h2, List.append_nil]
  rw [hfilter]
  rw [List.map_map]
  have hmaps : ((otherIndices n i).map ((fun p : Nat × F =>
      (p.1, exponential (F := F) t i
        (hmGet (((List.range n).map (· + 1)).map (fun l => (l, cm l))) p.1)
        ++ [((-p.2 : F), C.gen)])) ∘ (fun l => (l, sv l))))
      = (otherIndices n i).map (fun l =>
        (l, exponential (F := F) t i (cm l) ++ [((-(sv l) : F), C.gen)])) := by
    apply List.map_eq_map_iff.mpr
    intro l hl
    have hb := (mem_otherIndices n i l).mp hl
    simp only [Function.comp]
    rw [hmGet_mapList (fun l => cm l) l _ (((mem_oneTo n l).mpr ⟨hb.1, hb.2.1⟩))]
  rw [hmaps]
  have hfind : ((otherIndices n i).map (fun l =>
      (l, exponential (F := F) t i (cm l) ++ [((-(sv l) : F), C.gen)]))).find?
      (fun item => ¬ (msum item.2 = 0))
      = some (l₀, exponential (F := F) t i (cm l₀) ++ [((-(sv l₀) : F), C.gen)]) := by
    apply find_unique
    · exact List.mem_map.mpr ⟨l₀, hl₀, rfl⟩
    · simpa using hfail
    · intro y hy hne
      rcases List.mem_map.mp hy with ⟨l, hl, rfl⟩
      have hlne : l ≠ l₀ := by
        intro hc
        subst hc
        exact hne rfl
      simpa using hpass l hl hlne
  rw [hfind]
  rfl

/-- Counterexample to C2 as stated: in the concrete `t = 2`, `n = 3` run
where party 3's round-2 share is replaced by the validly-encoded scalar
`8 ≠ f_3(1)`, `complete_r2` does not return `InvalidShare(3)` — it returns
`InvalidCommitment(3)`. -/
theorem complete_r2_corruption_cex :
    complete_r2 toyCurve ⟨2, 3, 1⟩ 3 toyCommitments toyCorruptShares
      ≠ .error (.InvalidShare 3) ∧
    complete_r2 toyCurve ⟨2, 3, 1⟩ 3 toyCommitments toyCorruptShares
      = .error (.InvalidCommitment 3) := by
  constructor
  · decide
  · decide

/-- Witness for `complete_r2_single_corruption`: the toy scenario with party
3 corrupted. -/
theorem complete_r2_single_corruption_witness :
    complete_r2 toyCurve ⟨2, 3, 1⟩ 3
      (((List.range 3).map (· + 1)).map (fun l => (l, toyCm l)))
      ((otherIndices 3 1).map (fun l => (l, toySb l)))
      = .error (.InvalidCommitment 3) :=
  complete_r2_single_corruption toyCurve toyCurve_wf 2 3 1 (by decide) (by decide)
    3 toyCm toySb toySv (by decide) 3 (by decide) (by decide) (by decide)

end CorruptShareThms

section DkgThms

variable {F G : Type} [Field F] [DecidableEq F] [AddCommGroup G] [Module F G]
  [DecidableEq G]

/-- Dropping a prefix of known length from a decomposed byte string. -/
theorem drop_of_split (X A R : Bytes) (a : Nat) (hX : X = A ++ R) (ha : A.length = a) :
    X.drop a = R := by
  subst hX
  exact List.drop_left' ha

/-- The `readPoints` from the start of concatenated encodings. -/
theorem readPoints_ok0 (C : CurveData F G) (hWF : CurveWF C) (err : FrostError)
    (pts : List G) (suf : Bytes) (hz : ∀ p ∈ pts, p ≠ 0) :
    readPoints C err (pts.flatMap C.G_to_bytes ++ suf) 0 pts.length = .ok pts := by
  have := readPoints_ok C hWF err pts [] suf 0 rfl hz
  simpa using this

/-- The honest round-1 broadcast decomposes into the encoded commitments,
the proof-of-knowledge nonce commitment, and the response scalar. -/
theorem dkgBroadcast_eq (C : CurveData F G) (t n : Nat) (context : Bytes)
    (co : Nat → List F) (r : Nat → F) (l : Nat) :
    dkgBroadcast C t n context co r l
      = (dkgCommits C co l).flatMap C.G_to_bytes
        ++ (C.G_to_bytes (r l • C.gen) ++ C.F_to_bytes (dkgPoKs C context co r l)) :=
  rfl

/-- The Schnorr batch check of an honest signature vanishes. -/
theorem schnorr_check_zero (C : CurveData F G) (x r c : F) :
    (r • C.gen) + c • (x • C.gen) - (r + x * c) • C.gen = 0 := by
  rw [add_smul, mul_comm x c, mul_smul]
  abel

theorem verifyR1Loop_honest (C : CurveData F G) (hWF : CurveWF C) (hg : C.gen ≠ 0)
    (t n pi : Nat) (context : Bytes) (co : Nat → List F) (r : Nat → F)
    (ht : 1 ≤ t)
    (hco : ∀ l, 1 ≤ l → l ≤ n → (co l).length = t)
    (hcoz : ∀ l, 1 ≤ l → l ≤ n → ∀ a ∈ co l, a ≠ 0)
    (hrz : ∀ l, 1 ≤ l → l ≤ n → r l ≠ 0) :
    ∀ (ls : List Nat), (∀ l ∈ ls, 1 ≤ l ∧ l ≤ n) →
      verifyR1Loop C ⟨t, n, pi⟩ context
        ((otherIndices n pi).map (fun l => (l, dkgBroadcast C t n context co r l))
          ++ [(pi, dkgBroadcast C t n context co r pi)]) ls
      = .ok (ls.map (fun l => (l, dkgCommits C co l)),
          (ls.filter (fun l => l ≠ pi)).map (fun l =>
            (l, (co l).getD 0 0 • C.gen, dkgChal C context co r l,
              schnorrSign C ((co l).getD 0 0) (r l) (dkgChal C context co r l)))) := by
  intro ls
  induction ls with
  | nil => intro _; rfl
  | cons l rest ih =>
    intro hls
    have hl := hls l (by simp)
    have hbytes : hmGet ((otherIndices n pi).map
        (fun x => (x, dkgBroadcast C t n context co r x))
          ++ [(pi, dkgBroadcast C t n context co r pi)]) l
        = dkgBroadcast C t n context co r l := by
      rw [hmGet_fullMap n pi _ _ l hl.1 hl.2]
      by_cases hlpi : l = pi
      · subst hlpi; simp
      · rw [if_neg hlpi]
    have hcolen : (dkgCommits C co l).length = t := by
      simp [dkgCommits, hco l hl.1 hl.2]
    have hcz : ∀ p ∈ dkgCommits C co l, p ≠ 0 := by
      intro p hp
      rcases List.mem_map.mp hp with ⟨a, ha, rfl⟩
      exact smul_ne_zero_of_ne a C.gen (hcoz l hl.1 hl.2 a ha) hg
    have hrp := readPoints_ok0 C hWF (.InvalidCommitment l) (dkgCommits C co l)
      (C.G_to_bytes (r l • C.gen) ++ C.F_to_bytes (dkgPoKs C context co r l)) hcz
    rw [hcolen] at hrp
    rw [← dkgBroadcast_eq C t n context co r l] at hrp
    have hflatlen : ((dkgCommits C co l).flatMap C.G_to_bytes).length = t * C.G_len := by
      rw [flatMap_const_length _ _ _ (fun x _ => hWF.G_to_bytes_len x), hcolen]
    have hRb : slice (dkgBroadcast C t n context co r l) (t * C.G_len)
        (t * C.G_len + C.G_len) = C.G_to_bytes (r l • C.gen) :=
      slice_of_split _ ((dkgCommits C co l).flatMap C.G_to_bytes)
        (C.G_to_bytes (r l • C.gen)) (C.F_to_bytes (dkgPoKs C context co r l))
        (t * C.G_len) C.G_len (dkgBroadcast_eq C t n context co r l) hflatlen
        (hWF.G_to_bytes_len _)
    have hsb : (dkgBroadcast C t n context co r l).drop (t * C.G_len + C.G_len)
        = C.F_to_bytes (dkgPoKs C context co r l) :=
      drop_of_split _ ((dkgCommits C co l).flatMap C.G_to_bytes
          ++ C.G_to_bytes (r l • C.gen)) _ (t * C.G_len + C.G_len)
        (by rw [dkgBroadcast_eq]; simp [List.append_assoc])
        (by simp [hflatlen, hWF.G_to_bytes_len])
    have hAm : slice (dkgBroadcast C t n context co r l) 0 (t * C.G_len)
        = (dkgCommits C co l).flatMap C.G_to_bytes := by
      rw [dkgBroadcast_eq]
      exact slice_zero _ _ _ hflatlen
    have hgetD : (dkgCommits C co l).getD 0 0 = (co l).getD 0 0 • C.gen :=
      getD_map _ _ 0 (by rw [hco l hl.1 hl.2]; omega) 0 0
    rw [verifyR1Loop]
    dsimp only
    rw [hbytes, hrp, except_bind_ok]
    rw [ih (fun x hx => hls x (by simp [hx]))]
    by_cases hlpi : l = pi
    · rw [if_neg (by simpa using hlpi)]
      simp only [pure_bind, except_bind_ok]
      rw [List.filter_cons, if_neg (by simpa using hlpi)]
      simp
    · rw [if_pos (by simpa using hlpi)]
      rw [hRb, hWF.G_rt _ (smul_ne_zero_of_ne (r l) C.gen (hrz l hl.1 hl.2) hg),
        except_mapError_ok, hsb, hWF.F_rt, except_mapError_ok]
      simp only [pure_bind, except_bind_ok]
      rw [List.filter_cons, if_pos (by simpa using hlpi), hAm, hgetD]
      simp only [List.map_cons, List.nil_append, Except.ok.injEq, Prod.mk.injEq,
        List.cons.injEq, true_and]
      rfl

theorem batch_honest (C : CurveData F G) (context : Bytes) (co : Nat → List F)
    (r : Nat → F) (ls : List Nat) :
    schnorrBatchVerify C (ls.map (fun l =>
      (l, (co l).getD 0 0 • C.gen, dkgChal C context co r l,
        schnorrSign C ((co l).getD 0 0) (r l) (dkgChal C context co r l))))
      = .ok () := by
  unfold schnorrBatchVerify
  have hnone : (ls.map (fun l =>
      (l, (co l).getD 0 0 • C.gen, dkgChal C context co r l,
        schnorrSign C ((co l).getD 0 0) (r l) (dkgChal C context co r l)))).find?
      (fun p => ¬ (p.2.2.2.R + p.2.2.1 • p.2.1 - p.2.2.2.s • C.gen = 0)) = none := by
    rw [List.find?_eq_none]
    intro x hx
    rcases List.mem_map.mp hx with ⟨l, _, rfl⟩
    simp [schnorrSign, schnorr_check_zero]
  rw [hnone]

theorem verify_r1_honest (C : CurveData F G) (hWF : CurveWF C) (hg : C.gen ≠ 0)
    (t n pi : Nat) (context : Bytes) (co : Nat → List F) (r : Nat → F)
    (ht : 1 ≤ t)
    (hco : ∀ l, 1 ≤ l → l ≤ n → (co l).length = t)
    (hcoz : ∀ l, 1 ≤ l → l ≤ n → ∀ a ∈ co l, a ≠ 0)
    (hrz : ∀ l, 1 ≤ l → l ≤ n → r l ≠ 0)
    (h1 : 1 ≤ pi) (h2 : pi ≤ n) :
    verify_r1 C ⟨t, n, pi⟩ context (dkgBroadcast C t n context co r pi)
      ((otherIndices n pi).map (fun l => (l, dkgBroadcast C t n context co r l)))
      = .ok (((List.range n).map (· + 1)).map (fun l => (l, dkgCommits C co l))) := by
  unfold verify_r1
  dsimp only
  rw [validate_map_canonical n pi h1 h2 _ (dkgBroadcast C t n context co r pi)]
  dsimp only
  rw [except_bind_ok]
  rw [verifyR1Loop_honest C hWF hg t n pi context co r ht hco hcoz hrz
    ((List.range n).map (· + 1)) (fun l hl => (mem_oneTo n l).mp hl)]
  rw [except_bind_ok, batch_honest C context co r, except_mapError_ok, except_bind_ok]

theorem generate_key_r2_honest (C : CurveData F G) (hWF : CurveWF C) (hg : C.gen ≠ 0)
    (t n pi : Nat) (context : Bytes) (co : Nat → List F) (r : Nat → F)
    (ht : 1 ≤ t)
    (hco : ∀ l, 1 ≤ l → l ≤ n → (co l).length = t)
    (hcoz : ∀ l, 1 ≤ l → l ≤ n → ∀ a ∈ co l, a ≠ 0)
    (hrz : ∀ l, 1 ≤ l → l ≤ n → r l ≠ 0)
    (h1 : 1 ≤ pi) (h2 : pi ≤ n) :
    generate_key_r2 C ⟨t, n, pi⟩ context (co pi) (dkgBroadcast C t n context co r pi)
      ((otherIndices n pi).map (fun l => (l, dkgBroadcast C t n context co r l)))
      = .ok (polynomial (co pi) pi,
          ((List.range n).map (· + 1)).map (fun l => (l, dkgCommits C co l)),
          (otherIndices n pi).map (fun l => (l, C.F_to_bytes (polynomial (co pi) l)))) := by
  unfold generate_key_r2
  rw [verify_r1_honest C hWF hg t n pi context co r ht hco hcoz hrz h1 h2, except_bind_ok]
  rfl

theorem mapM_ok {ε α β : Type _} (f : α → Except ε β) (g : α → β) :
    ∀ (ls : List α), (∀ x ∈ ls, f x = .ok (g x)) → ls.mapM f = .ok (ls.map g) := by
  intro ls
  induction ls with
  | nil => intro _; rfl
  | cons x tl ih =>
    intro h
    rw [← List.mapM'_eq_mapM, List.mapM'_cons, List.mapM'_eq_mapM, h x (by simp),
      ih (fun y hy => h y (by simp [hy]))]
    rfl

theorem complete_r2_honest (C : CurveData F G) (hWF : CurveWF C) (hg : C.gen ≠ 0)
    (t n pi : Nat) (co : Nat → List F)
    (ht : 1 ≤ t)
    (hco : ∀ l, 1 ≤ l → l ≤ n → (co l).length = t)
    (h1 : 1 ≤ pi) (h2 : pi ≤ n) :
    complete_r2 C ⟨t, n, pi⟩ (polynomial (co pi) pi)
      (((List.range n).map (· + 1)).map (fun l => (l, dkgCommits C co l)))
      ((otherIndices n pi).map (fun l => (l, C.F_to_bytes (polynomial (co l) pi))))
      = .ok
        { params := ⟨t, n, pi⟩
          secret_share := dkgSecret n co pi
          group_key := dkgStripe C n co 0
          verification_shares := (List.range n).map
            (fun j => dkgVerificationShare C t n co (j + 1))
          offset := none } := by
  unfold complete_r2
  dsimp only
  rw [validate_map_canonical n pi h1 h2 (fun l => C.F_to_bytes (polynomial (co l) pi))
    (C.F_to_bytes (polynomial (co pi) pi))]
  dsimp only
  rw [except_bind_ok]
  have hdec1 : decodeShares C [(pi, C.F_to_bytes (polynomial (co pi) pi))]
      = .ok [(pi, polynomial (co pi) pi)] := by
    rw [decodeShares, hWF.F_rt, except_mapError_ok, except_bind_ok, decodeShares,
      except_bind_ok]
  rw [decodeShares_append C _ _ _ _
    (decodeShares_mapList C _ (fun l => polynomial (co l) pi) _
      (fun l _ => hWF.F_rt (polynomial (co l) pi))) hdec1, except_bind_ok]
  have hfilter : (((otherIndices n pi).map (fun l => (l, polynomial (co l) pi))
      ++ [(pi, polynomial (co pi) pi)]).filter (fun p => p.1 ≠ pi))
      = (otherIndices n pi).map (fun l => (l, polynomial (co l) pi)) := by
    rw [List.filter_append]
    have ha : ((otherIndices n pi).map (fun l => (l, polynomial (co l) pi))).filter
        (fun p => p.1 ≠ pi) = (otherIndices n pi).map (fun l => (l, polynomial (co l) pi)) := by
      apply List.filter_eq_self.mpr
      intro p hp
      rcases List.mem_map.mp hp with ⟨x, hx, rfl⟩
      simpa using ((mem_otherIndices n pi x).mp hx).2.2
    have hb : ([((pi : Nat), polynomial (co pi) pi)].filter (fun p => p.1 ≠ pi)) = [] := by
      simp
    rw [ha, hb, List.append_nil]
  rw [hfilter, List.map_map]
  have hmaps : ((otherIndices n pi).map ((fun p : Nat × F =>
      (p.1, exponential (F := F) t pi
        (hmGet (((List.range n).map (· + 1)).map (fun l => (l, dkgCommits C co l))) p.1)
        ++ [((-p.2 : F), C.gen)])) ∘ (fun l => (l, polynomial (co l) pi))))
      = (otherIndices n pi).map (fun l =>
        (l, exponential (F := F) t pi (dkgCommits C co l)
          ++ [((-(polynomial (co l) pi) : F), C.gen)])) := by
    apply List.map_eq_map_iff.mpr
    intro l hl
    have hb := (mem_otherIndices n pi l).mp hl
    simp only [Function.comp]
    rw [hmGet_mapList (fun l => dkgCommits C co l) l _ ((mem_oneTo n l).mpr ⟨hb.1, hb.2.1⟩)]
  rw [hmaps]
  have hfind : ((otherIndices n pi).map (fun l =>
      (l, exponential (F := F) t pi (dkgCommits C co l)
        ++ [((-(polynomial (co l) pi) : F), C.gen)]))).find?
      (fun item => ¬ (msum item.2 = 0)) = none := by
    rw [List.find?_eq_none]
    intro x hx
    rcases List.mem_map.mp hx with ⟨l, hl, rfl⟩
    have hb := (mem_otherIndices n pi l).mp hl
    have hz := share_check_zero C t pi (co l) (hco l hb.1 hb.2.1)
    rw [show (co l).map (fun a => a • C.gen) = dkgCommits C co l from rfl] at hz
    simp [hz]
  rw [hfind]
  have hsec : List.foldl (fun acc p => acc + p.2) (polynomial (co pi) pi)
      ((otherIndices n pi).map (fun l => (l, polynomial (co l) pi)))
      = dkgSecret n co pi := by
    rw [foldl_add_snd, List.map_map]
    unfold dkgSecret
    rw [((perm_oneTo n pi h1 h2).map (fun l => polynomial (co l) pi)).sum_eq]
    simp only [List.map_cons, List.sum_cons, Function.comp]
    rfl
  have hstripes : (List.range t).map (fun k =>
      (((((List.range n).map (· + 1)).map (fun l => (l, dkgCommits C co l))).map
        (fun p => p.2.getD k 0)).sum))
      = (List.range t).map (dkgStripe C n co) := by
    apply List.map_eq_map_iff.mpr
    intro k hk
    rw [List.map_map]
    unfold dkgStripe
    congr 1
    apply List.map_eq_map_iff.mpr
    intro l hl
    have hb := (mem_oneTo n l).mp hl
    simp only [Function.comp]
    exact getD_map _ _ k (by rw [hco l hb.1 hb.2]; exact List.mem_range.mp hk) 0 0
  rw [hstripes, hsec]
  have hrange0 : (List.range t).getD 0 0 = 0 := by
    rw [List.getD_eq_getElem _ _ (by simpa using ht)]
    simp
  have hgk : ((List.range t).map (dkgStripe C n co)).getD 0 0 = dkgStripe C n co 0 := by
    rw [getD_map _ _ 0 (by simpa using ht) 0 0, hrange0]
  rw [hgk]
  have hvs : (List.range n).map (fun j =>
      msum (exponential (F := F) t (j + 1) ((List.range t).map (dkgStripe C n co))))
      = (List.range n).map (fun j => dkgVerificationShare C t n co (j + 1)) := by
    apply List.map_eq_map_iff.mpr
    intro j _
    rw [msum_exponential]
    have hterm : ∀ k ∈ Finset.range t,
        ((((j + 1 : Nat)) : F)) ^ k • ((List.range t).map (dkgStripe C n co)).getD k 0
          = ((((j + 1 : Nat)) : F)) ^ k • dkgStripe C n co k := by
      intro k hk
      rw [getD_map _ _ k (by simpa using Finset.mem_range.mp hk) 0 0,
        List.getD_eq_getElem _ _ (by simpa using Finset.mem_range.mp hk),
        List.getElem_range]
    rw [Finset.sum_congr rfl hterm]
    rfl
  rw [hvs]

theorem dkgRun_honest (C : CurveData F G) (hWF : CurveWF C) (hg : C.gen ≠ 0)
    (t n : Nat) (context : Bytes) (co : Nat → List F) (r : Nat → F)
    (ht : 1 ≤ t)
    (hco : ∀ l, 1 ≤ l → l ≤ n → (co l).length = t)
    (hcoz : ∀ l, 1 ≤ l → l ≤ n → ∀ a ∈ co l, a ≠ 0)
    (hrz : ∀ l, 1 ≤ l → l ≤ n → r l ≠ 0)
    (pi : Nat) (h1 : 1 ≤ pi) (h2 : pi ≤ n) :
    dkgRun C t n context co r pi = .ok
      { params := ⟨t, n, pi⟩
        secret_share := dkgSecret n co pi
        group_key := dkgStripe C n co 0
        verification_shares := (List.range n).map
          (fun j => dkgVerificationShare C t n co (j + 1))
        offset := none } := by
  unfold dkgRun
  dsimp only
  rw [generate_key_r2_honest C hWF hg t n pi context co r ht hco hcoz hrz h1 h2,
    except_bind_ok]
  have hmapm : (otherIndices n pi).mapM (fun l => do
      let sent ← generate_key_r2 C ⟨t, n, l⟩ context (co l)
        (dkgBroadcast C t n context co r l)
        ((otherIndices n l).map (fun m => (m, dkgBroadcast C t n context co r m)))
      pure (l, hmGet sent.2.2 pi))
      = .ok ((otherIndices n pi).map
          (fun l => (l, C.F_to_bytes (polynomial (co l) pi)))) := by
    apply mapM_ok
    intro l hl
    have hb := (mem_otherIndices n pi l).mp hl
    rw [generate_key_r2_honest C hWF hg t n l context co r ht hco hcoz hrz hb.1 hb.2.1,
      except_bind_ok]
    dsimp only
    rw [hmGet_mapList (fun m => C.F_to_bytes (polynomial (co l) m)) pi _
      ((mem_otherIndices n l pi).mpr ⟨h1, h2, fun hc => hb.2.2 hc.symm⟩)]
    rfl
  rw [hmapm, except_bind_ok]
  exact complete_r2_honest C hWF hg t n pi co ht hco h1 h2

theorem dkgSecret_smul (C : CurveData F G) (t n pi : Nat) (co : Nat → List F)
    (hco : ∀ l, 1 ≤ l → l ≤ n → (co l).length = t) :
    (dkgSecret n co pi) • C.gen = dkgVerificationShare C t n co pi := by
  unfold dkgSecret dkgVerificationShare dkgStripe
  simp only [List.map_map]
  show (∑ j in Finset.range n, polynomial (co (j + 1)) pi) • C.gen
    = ∑ k in Finset.range t, (((pi : F)) ^ k)
        • ∑ j in Finset.range n, ((co (j + 1)).getD k 0) • C.gen
  rw [Finset.sum_smul]
  have hterm : ∀ j ∈ Finset.range n,
      (polynomial (co (j + 1)) pi) • C.gen
        = ∑ k in Finset.range t, ((co (j + 1)).getD k 0 * ((pi : F)) ^ k) • C.gen := by
    intro j hj
    rw [polynomial_eq_sum, hco (j + 1) (by omega) (by simpa using Finset.mem_range.mp hj),
      Finset.sum_smul]
  rw [Finset.sum_congr rfl hterm, Finset.sum_comm]
  apply Finset.sum_congr rfl
  intro k _
  rw [Finset.smul_sum]
  apply Finset.sum_congr rfl
  intro j _
  rw [smul_smul, mul_comm]

/-- C4: for any parameters `1 ≤ t ≤ n`, when `n` honest parties run the
full DKG (`generate_coefficients`, `generate_secret_shares`, `complete`)
exchanging messages faithfully — with the sampled coefficients and
proof-of-knowledge nonces nonzero, so that no commitment is the identity
(which point decoding MUST reject) — every party finishes without error with
the closed-form keys; for every party `GENERATOR · secret_share =
verification_shares[i]`; and all parties obtain the same `group_key` and the
same `verification_shares` map. -/
theorem dkg_correctness (C : CurveData F G) (hWF : CurveWF C) (hg : C.gen ≠ 0)
    (t n : Nat) (context : Bytes) (co : Nat → List F) (r : Nat → F)
    (ht : 1 ≤ t) (htn : t ≤ n)
    (hco : ∀ l, 1 ≤ l → l ≤ n → (co l).length = t)
    (hcoz : ∀ l, 1 ≤ l → l ≤ n → ∀ a ∈ co l, a ≠ 0)
    (hrz : ∀ l, 1 ≤ l → l ≤ n → r l ≠ 0) :
    (∀ pi, 1 ≤ pi → pi ≤ n →
      dkgRun C t n context co r pi = .ok
        { params := ⟨t, n, pi⟩
          secret_share := dkgSecret n co pi
          group_key := dkgStripe C n co 0
          verification_shares := (List.range n).map
            (fun j => dkgVerificationShare C t n co (j + 1))
          offset := none }
      ∧ (dkgSecret n co pi) • C.gen = dkgVerificationShare C t n co pi) ∧
    (∀ p1 p2, 1 ≤ p1 → p1 ≤ n → 1 ≤ p2 → p2 ≤ n →
      (dkgRun C t n context co r p1).map MultisigKeys.group_key
        = (dkgRun C t n context co r p2).map MultisigKeys.group_key ∧
      (dkgRun C t n context co r p1).map MultisigKeys.verification_shares
        = (dkgRun C t n context co r p2).map MultisigKeys.verification_shares) := by
  constructor
  · intro pi h1 h2
    exact ⟨dkgRun_honest C hWF hg t n context co r ht hco hcoz hrz pi h1 h2,
      dkgSecret_smul C t n pi co hco⟩
  · intro p1 p2 h11 h12 h21 h22
    rw [dkgRun_honest C hWF hg t n context co r ht hco hcoz hrz p1 h11 h12,
      dkgRun_honest C hWF hg t n context co r ht hco hcoz hrz p2 h21 h22]
    exact ⟨rfl, rfl⟩

/-- Witness for `dkg_correctness`: the concrete honest `t = 2`, `n = 2` run
over the toy curve, seen from party 1. -/
theorem dkg_correctness_witness :
    dkgRun toyCurve 2 2 [99] toyCo toyR 1 = .ok
      { params := ⟨2, 2, 1⟩
        secret_share := dkgSecret 2 toyCo 1
        group_key := dkgStripe toyCurve 2 toyCo 0
        verification_shares := (List.range 2).map
          (fun j => dkgVerificationShare toyCurve 2 2 toyCo (j + 1))
        offset := none }
    ∧ (dkgSecret 2 toyCo 1) • toyCurve.gen = dkgVerificationShare toyCurve 2 2 toyCo 1 :=
  (dkg_correctness toyCurve toyCurve_wf (by decide) 2 2 [99] toyCo toyR (by decide)
    (by decide) (fun l _ _ => rfl)
    (fun l h1 h2 => by
      have hl : l = 1 ∨ l = 2 := by omega
      rcases hl with rfl | rfl <;> decide)
    (fun l h1 h2 => by
      have hl : l = 1 ∨ l = 2 := by omega
      rcases hl with rfl | rfl <;> decide)).1 1 (by decide) (by decide)

end DkgThms

end Frost
